import Mathlib

/-!
Verification of the cb2utorial tutorial-generation pipeline.

The Go source is shallowly embedded: each service's post-LLM-parse
validation/conversion logic becomes a Lean function over explicit data,
Go strings become `String`/`List Char`, Go `int` becomes `Int`
(machine-range checks are made explicit where the source performs them),
fallible Go code returns `Except`, and a Go index-out-of-range panic is
modelled as `Option.none` or a dedicated error constructor.
-/

/-- A YAML scalar as it reaches `extractIndex` through Go's
`interface{}`: an integer, a string, or any other YAML type
(float, bool, map, list, null), which the Go type switch rejects. -/
inductive YamlVal where
  | int (n : Int)
  | str (s : String)
  | other
deriving DecidableEq, Repr

/-- Error cases of `extractIndex`: `strconv.Atoi` failure, or the
`default` branch of the Go type switch ("unexpected type %T for index"). -/
inductive IndexErr where
  | badSyntax
  | badType
deriving DecidableEq, Repr

/-- The ASCII whitespace set trimmed by Go's `strings.TrimSpace`
(`unicode.IsSpace` restricted to the code points relevant here:
TAB, LF, VT, FF, CR, SP, NEL, NBSP). -/
def isGoSpace (c : Char) : Bool :=
  c.toNat == 9 || c.toNat == 10 || c.toNat == 11 || c.toNat == 12 ||
  c.toNat == 13 || c.toNat == 32 || c.toNat == 133 || c.toNat == 160

/-- Go `strings.TrimSpace` on a character list: drop whitespace from
both ends. -/
def goTrimSpace (cs : List Char) : List Char :=
  ((cs.dropWhile isGoSpace).reverse.dropWhile isGoSpace).reverse

/-- ASCII decimal digit test, as in Go's `strconv` lexer. -/
def isDigitChar (c : Char) : Bool :=
  48 ≤ c.toNat && c.toNat ≤ 57

/-- Digit accumulation loop of Go's `strconv.ParseInt` (base 10):
consume every character, failing on the first non-digit. -/
def parseNatAux : List Char → Nat → Option Nat
  | [], acc => some acc
  | c :: rest, acc =>
      if isDigitChar c then parseNatAux rest (acc * 10 + (c.toNat - 48)) else none

/-- Digits part of Go's `strconv.ParseInt`: at least one digit required. -/
def parseNatDigits (cs : List Char) : Option Nat :=
  match cs with
  | [] => none
  | _ :: _ => parseNatAux cs 0

/-- Go `strconv.Atoi` (= `ParseInt(s, 10, 0)` on a 64-bit platform):
optional sign, decimal digits, and a range check against the 64-bit
`int` type; out-of-range input is an error (`ErrRange`). -/
def goAtoi (cs : List Char) : Option Int :=
  match cs with
  | [] => none
  | c :: rest =>
      if c = '-' then
        (parseNatDigits rest).bind fun v =>
          if v ≤ 2 ^ 63 then some (-(v : Int)) else none
      else if c = '+' then
        (parseNatDigits rest).bind fun v =>
          if v ≤ 2 ^ 63 - 1 then some ((v : Int)) else none
      else
        (parseNatDigits cs).bind fun v =>
          if v ≤ 2 ^ 63 - 1 then some ((v : Int)) else none

/-- Go `strings.Contains(cs, sep)` for a nonempty separator: some
position of `cs` starts with `sep`. -/
def containsSub (sep : List Char) : List Char → Bool
  | [] => sep.isPrefixOf []
  | c :: rest => sep.isPrefixOf (c :: rest) || containsSub sep rest

/-- The text before the first occurrence of `sep` (all of the text when
`sep` does not occur): `strings.Split(cs, sep)[0]`. -/
def beforeFirst (sep : List Char) : List Char → List Char
  | [] => []
  | c :: rest =>
      if sep.isPrefixOf (c :: rest) then []
      else c :: beforeFirst sep rest

/-- The text after the first occurrence of `sep`, when `sep` occurs. -/
def afterFirst (sep : List Char) : List Char → Option (List Char)
  | [] => none
  | c :: rest =>
      if sep.isPrefixOf (c :: rest) then some ((c :: rest).drop sep.length)
      else afterFirst sep rest

/-- `extractIndex` from relationship_analyzer.go: an `int` is returned
as-is; a string containing `#` is split at the first `#` and the
trimmed front part parsed with `Atoi`; any other string is trimmed and
parsed whole; any other type is rejected. -/
def extractIndex : YamlVal → Except IndexErr Int
  | .int n => .ok n
  | .str s =>
      if containsSub [ '#' ] s.data then
        match goAtoi (goTrimSpace (beforeFirst [ '#' ] s.data)) with
        | some n => .ok n
        | none => .error .badSyntax
      else
        match goAtoi (goTrimSpace s.data) with
        | some n => .ok n
        | none => .error .badSyntax
  | .other => .error .badType

/-- Decimal digit character of `d` (`d < 10`). -/
def digitChar (d : Nat) : Char :=
  match d with
  | 0 => '0' | 1 => '1' | 2 => '2' | 3 => '3' | 4 => '4'
  | 5 => '5' | 6 => '6' | 7 => '7' | 8 => '8' | _ => '9'

/-- Canonical decimal digit string of a natural number, most
significant digit first. -/
def natChars (n : Nat) : List Char :=
  if h : n < 10 then [digitChar n]
  else
    have : n / 10 < n := Nat.div_lt_self (by omega) (by omega)
    natChars (n / 10) ++ [digitChar (n % 10)]

/-- Canonical decimal string of an integer (`"-"` prefix when
negative), i.e. the string `"n"` of the specification. -/
def intStr (n : Int) : String :=
  if n < 0 then ⟨'-' :: natChars (-n).toNat⟩ else ⟨natChars n.toNat⟩

/-! ## Data model (types package) -/

/-- `types.FileContent`: one indexed source file. -/
structure FileContent where
  index : Int
  path : String
  content : String
deriving DecidableEq, Repr

/-- `types.Abstraction`. -/
structure Abstraction where
  index : Int
  name : String
  description : String
  fileIndices : List Int
deriving DecidableEq, Repr

/-- `types.Relationship`. -/
structure Relationship where
  fromIndex : Int
  toIndex : Int
  label : String
deriving DecidableEq, Repr

/-- `types.ChapterSummary`. -/
structure ChapterSummary where
  name : String
  summary : String
deriving DecidableEq, Repr

/-- `types.WriteChapterOutput`: one generated chapter. -/
structure Chapter where
  chapterNumber : Int
  title : String
  content : String
deriving DecidableEq, Repr

/-! ## ChapterOrderer.OrderChapters: validation of the proposed order -/

/-- Errors of the `OrderChapters` conversion loop, carrying the data the
Go error messages report. -/
inductive OrderErr where
  | invalidRef (pos : Nat)
  | outOfBounds (idx : Int) (pos : Nat)
  | duplicate (idx : Int)
  | missingAbs (missing : List Nat)
deriving DecidableEq, Repr

/-- The conversion loop of `OrderChapters` (chapter_orderer.go): resolve
each reference, bounds-check it against the abstraction count `n`,
reject duplicates via the `seen` set, and accumulate the order. -/
def orderLoop (n : Nat) : List YamlVal → Nat → List Int → List Int →
    Except OrderErr (List Int × List Int)
  | [], _, seen, acc => .ok (acc.reverse, seen)
  | v :: rest, pos, seen, acc =>
      match extractIndex v with
      | .error _ => .error (.invalidRef pos)
      | .ok idx =>
          if idx < 0 ∨ (n : Int) ≤ idx then .error (.outOfBounds idx pos)
          else if idx ∈ seen then .error (.duplicate idx)
          else orderLoop n rest (pos + 1) (idx :: seen) (idx :: acc)

/-- `OrderChapters` after YAML parsing, over `n` abstractions: the loop,
then the completeness check computing the full missing set (in
increasing index order, as the Go loop over `0..n-1` does). -/
def orderChapters (n : Nat) (vals : List YamlVal) : Except OrderErr (List Int) :=
  match orderLoop n vals 0 [] [] with
  | .error e => .error e
  | .ok (order, seen) =>
      if order.length ≠ n then
        .error (.missingAbs ((List.range n).filter fun i => ¬ (i : Int) ∈ seen))
      else .ok order

/-- Resolution of a whole reference list (specification-side companion:
the "resolved index list" the claims quantify over). -/
def resolveAll : List YamlVal → Option (List Int)
  | [] => some []
  | v :: rest =>
      match extractIndex v with
      | .error _ => none
      | .ok i => (resolveAll rest).map (i :: ·)

/-! ## AbstractionAnalyzer.AnalyzeAbstractions: post-parse pipeline -/

/-- The YAML shape `AnalyzeAbstractions` unmarshals (note: it has no
index field, so an index proposed by the generator is dropped by the
parse). -/
structure YamlAbstraction where
  name : String
  description : String
  files : List Int
deriving DecidableEq, Repr

/-- Errors of the `AnalyzeAbstractions` post-parse pipeline.
`slicePanic` models the Go runtime panic of `s[:max]` for negative
`max`, which is not an error return but also not a success. -/
inductive AbsErr where
  | noAbstractions
  | invalidFileIndex (idx : Int) (name : String)
  | slicePanic
deriving DecidableEq, Repr

/-- Conversion loop of `AnalyzeAbstractions`: validate every file index
of each entry against the corpus size, and assign `Index` from the
output position `i`. -/
def convertAbs (numFiles : Nat) : List YamlAbstraction → Nat →
    Except AbsErr (List Abstraction)
  | [], _ => .ok []
  | ya :: rest, i =>
      match ya.files.find? (fun fi => decide (fi < 0) || decide ((numFiles : Int) ≤ fi)) with
      | some fi => .error (.invalidFileIndex fi ya.name)
      | none =>
          (convertAbs numFiles rest (i + 1)).map
            (⟨(i : Int), ya.name, ya.description, ya.files⟩ :: ·)

/-- `AnalyzeAbstractions` after YAML parsing: the non-empty check, the
ceiling truncation `yamlAbstractions[:MaxAbstractions]` (a Go panic when
the ceiling is negative), then the conversion loop. -/
def analyzeAbstractionsPost (numFiles : Nat) (maxAbs : Int)
    (parsed : List YamlAbstraction) : Except AbsErr (List Abstraction) :=
  if parsed.length = 0 then .error .noAbstractions
  else
    match (if (parsed.length : Int) > maxAbs then
             (if maxAbs < 0 then none else some (parsed.take maxAbs.toNat))
           else some parsed) with
    | none => .error .slicePanic
    | some truncated => convertAbs numFiles truncated 0

/-! ## RelationshipAnalyzer.AnalyzeRelationships: edge conversion -/

/-- The YAML shape of one proposed relationship (from/to may be an int
or an annotated string, hence `YamlVal`). -/
structure YamlRelationship where
  fromRef : YamlVal
  toRef : YamlVal
  label : String
deriving DecidableEq, Repr

/-- Errors of the edge conversion loop, carrying the edge position the
Go error messages report. -/
inductive RelErr where
  | invalidFrom (pos : Nat)
  | invalidTo (pos : Nat)
  | fromOutOfBounds (idx : Int) (pos : Nat)
  | toOutOfBounds (idx : Int) (pos : Nat)
deriving DecidableEq, Repr

/-- Edge conversion loop of `AnalyzeRelationships` over `n`
abstractions: resolve both endpoints, then bounds-check `from`, then
`to`; self-referencing and duplicate edges pass through unchanged. -/
def convertRels (n : Nat) : List YamlRelationship → Nat →
    Except RelErr (List Relationship)
  | [], _ => .ok []
  | yr :: rest, i =>
      match extractIndex yr.fromRef with
      | .error _ => .error (.invalidFrom i)
      | .ok fromIdx =>
          match extractIndex yr.toRef with
          | .error _ => .error (.invalidTo i)
          | .ok toIdx =>
              if fromIdx < 0 ∨ (n : Int) ≤ fromIdx then
                .error (.fromOutOfBounds fromIdx i)
              else if toIdx < 0 ∨ (n : Int) ≤ toIdx then
                .error (.toOutOfBounds toIdx i)
              else
                (convertRels n rest (i + 1)).map (⟨fromIdx, toIdx, yr.label⟩ :: ·)

/-! ## utils.SanitizeFilename and FileWriter.WriteMarkdownFiles -/

/-- Character-wise `strings.ToLower` (ASCII letters; a non-ASCII
character is left unchanged here, and is mapped to an underscore by the
following step either way). -/
def goToLowerChar (c : Char) : Char :=
  if 65 ≤ c.toNat ∧ c.toNat ≤ 90 then Char.ofNat (c.toNat + 32) else c

/-- The `strings.Map` step of `SanitizeFilename`: keep `[a-z0-9]`,
replace everything else with an underscore. -/
def sanitizeMapChar (c : Char) : Char :=
  if (97 ≤ c.toNat ∧ c.toNat ≤ 122) ∨ (48 ≤ c.toNat ∧ c.toNat ≤ 57) then c else '_'

/-- One `strings.ReplaceAll(name, "__", "_")` pass: replace
non-overlapping pairs of underscores, leftmost first. -/
def replacePairs : List Char → List Char
  | [] => []
  | [c] => [c]
  | c1 :: c2 :: rest =>
      if c1 = '_' ∧ c2 = '_' then '_' :: replacePairs rest
      else c1 :: replacePairs (c2 :: rest)

/-- The `for strings.Contains(name, "__")` loop of `SanitizeFilename`,
with explicit fuel (the list length bounds the number of passes, since
each pass on a list containing a double underscore shortens it). -/
def collapseLoop : Nat → List Char → List Char
  | 0, cs => cs
  | fuel + 1, cs =>
      if containsSub [ '_', '_' ] cs then collapseLoop fuel (replacePairs cs) else cs

/-- The collapse loop run to completion. -/
def collapseUnderscores (cs : List Char) : List Char :=
  collapseLoop cs.length cs

/-- `strings.Trim(name, "_")`: drop underscores from both ends. -/
def trimUnderscores (cs : List Char) : List Char :=
  ((cs.dropWhile (· == '_')).reverse.dropWhile (· == '_')).reverse

/-- `utils.SanitizeFilename`: lowercase, map to `[a-z0-9_]`, collapse
double underscores to exhaustion, trim edge underscores. -/
def sanitizeFilename (s : String) : String :=
  ⟨trimUnderscores (collapseUnderscores ((s.data.map goToLowerChar).map sanitizeMapChar))⟩

/-- Single-pass run collapsing (the specification's wording: every run
of repeated underscores becomes a single underscore). Used to compare
against the `ReplaceAll` loop of the source. -/
def collapseRunsSpec : List Char → List Char
  | [] => []
  | c :: rest =>
      if c = '_' then
        '_' :: collapseRunsSpec (rest.dropWhile (· == '_'))
      else c :: collapseRunsSpec rest
termination_by cs => cs.length
decreasing_by
  · simp only [List.length_cons]
    exact Nat.lt_succ_of_le (List.dropWhile_sublist _).length_le
  · simp

/-- `fmt.Sprintf("%02d", n)`: decimal, zero-padded to width 2. -/
def pad2 (n : Int) : String :=
  if 0 ≤ n ∧ n < 10 then ⟨'0' :: natChars n.toNat⟩ else intStr n

/-- The filename `fmt.Sprintf("%02d_%s.md", ChapterNumber, sanitizedTitle)`
of `WriteMarkdownFiles`. -/
def chapterFilename (ch : Chapter) : String :=
  pad2 ch.chapterNumber ++ "_" ++ sanitizeFilename ch.title ++ ".md"

/-- `filepath.Join` (modulo separator normalization, which no claim
touches). -/
def joinPath (dir name : String) : String :=
  dir ++ "/" ++ name

/-- The write loop of `WriteMarkdownFiles`. The on-disk state is an
association list of written `(path, content)` pairs; `writeFails` is
the environment's say on which `os.WriteFile` calls fail. A failing
write aborts the loop, leaving the files already written in place. -/
def writeLoop (writeFails : String → Bool) (outDir : String) :
    List Chapter → List (String × String) → List String →
    List (String × String) × Except String (List String)
  | [], fs, written => (fs, .ok written.reverse)
  | ch :: rest, fs, written =>
      let fp := joinPath outDir (chapterFilename ch)
      if writeFails fp then
        (fs, .error ("failed to write file " ++ chapterFilename ch))
      else
        writeLoop writeFails outDir rest (fs ++ [(fp, ch.content)]) (fp :: written)

/-- `FileWriter.WriteMarkdownFiles`: validate the output directory,
then write every chapter (directory creation is not part of the
modelled state). -/
def writeMarkdownFiles (writeFails : String → Bool)
    (fs : List (String × String)) (outDir : String) (chapters : List Chapter) :
    List (String × String) × Except String (List String) :=
  if outDir = "" then (fs, .error "output_dir is required")
  else writeLoop writeFails outDir chapters fs []

/-! ## Structured-response extraction (fenced-block isolation) -/

/-- The plain fence delimiter. -/
def ticks : List Char := ("```").data

/-- The yaml-tagged fence delimiter. -/
def tickYaml : List Char := ("```yaml").data

/-- The fenced-block isolation shared by AnalyzeAbstractions,
AnalyzeRelationships and OrderChapters: if the response contains a
yaml-tagged fence, take `Split(response, "```yaml")[1]` cut at the next
plain fence; otherwise if it contains any fence, take
`Split(response, "```")[1]`; otherwise take the whole response. The
`none` fallbacks are unreachable (`Contains` guarantees an occurrence). -/
def extractBlock (response : List Char) : List Char :=
  if containsSub tickYaml response then
    match afterFirst tickYaml response with
    | some rest => beforeFirst ticks (beforeFirst tickYaml rest)
    | none => response
  else if containsSub ticks response then
    match afterFirst ticks response with
    | some rest => beforeFirst ticks rest
    | none => response
  else response

/-! ## ChapterWriter.WriteChapter: prompt construction -/

/-- Go slice indexing `xs[i]` with an `Int` index: `none` models the
runtime panic on a negative or too-large index. -/
def goIndex {α : Type} (xs : List α) (i : Int) : Option α :=
  if 0 ≤ i ∧ i < (xs.length : Int) then xs.get? i.toNat else none

/-- `types.WriteChapterInput`. -/
structure WriteChapterInput where
  abstraction : Abstraction
  files : List FileContent
  previousChapters : List ChapterSummary
  projectName : String
  chapterNumber : Int
deriving Repr

/-- The per-file content sample of `WriteChapter` (8000-character cap,
longer content marked as truncated). -/
def wcFileSample (content : String) : String :=
  if content.data.length > 8000 then
    (⟨content.data.take 8000⟩ : String) ++ "\n... (truncated for brevity)"
  else content

/-- One related-file entry of the `WriteChapter` prompt context. -/
def wcFileEntry (f : FileContent) : String :=
  "### File: " ++ f.path ++ "\n" ++ "```\n" ++ wcFileSample f.content ++ "\n```\n\n"

/-- The related-files loop of `WriteChapter`: an index at or above the
corpus size is skipped (`continue`); a negative index reaches
`input.Files[fileIdx]` unguarded and panics (`none`). -/
def wcFileEntries (files : List FileContent) : List Int → Option String
  | [] => some ""
  | fi :: rest =>
      if (files.length : Int) ≤ fi then wcFileEntries files rest
      else
        match goIndex files fi with
        | none => none
        | some f => (wcFileEntries files rest).map (wcFileEntry f ++ ·)

/-- The full related-files context of `WriteChapter`. -/
def wcFileContext (files : List FileContent) (indices : List Int) : Option String :=
  (wcFileEntries files indices).map ("Related code files:\n\n" ++ ·)

/-- One previously-covered line of the `WriteChapter` prompt. -/
def prevLine (cs : ChapterSummary) : String :=
  "- " ++ cs.name ++ ": " ++ cs.summary ++ "\n"

/-- The previously-covered lines, in order. -/
def prevLines : List ChapterSummary → String
  | [] => ""
  | c :: rest => prevLine c ++ prevLines rest

/-- The previous-chapters block of `WriteChapter`: empty for an empty
list, otherwise a captioned block with one line per prior chapter. -/
def prevContext (prev : List ChapterSummary) : String :=
  if prev.isEmpty then ""
  else "\n\nPREVIOUSLY COVERED CONCEPTS (for reference, don't repeat):\n" ++ prevLines prev

/-- Template pieces of the `WriteChapter` prompt, between the `%s`
verbs of its `fmt.Sprintf`. -/
def wcT1 : String := "You are writing a tutorial chapter for the \""

/-- Template after the project name. -/
def wcT2 : String :=
  "\" project.\n\nTARGET AUDIENCE: Developers new to this codebase who want to understand it quickly.\n\nABSTRACTION TO EXPLAIN:\nName: "

/-- Template between abstraction name and description. -/
def wcT3 : String := "\nDescription: "

/-- Template between description and file context. -/
def wcT4 : String := "\n\n"

/-- Template between file context and previous-chapters block. -/
def wcT5 : String := "\n\n"

/-- Template between previous-chapters block and the chapter heading. -/
def wcT6 : String :=
  "\n\nYour task: Write a comprehensive, beginner-friendly tutorial chapter explaining this abstraction.\n\nREQUIREMENTS:\n1. Use clear, simple language\n2. Include code examples from the provided files\n3. Use analogies or real-world examples where helpful\n4. Explain WHY this abstraction exists, not just WHAT it does\n5. Break down complex concepts into digestible parts\n6. Format as markdown\n\nSTRUCTURE YOUR CHAPTER:\n# "

/-- Template tail after the chapter heading. -/
def wcT7 : String :=
  "\n\n[Brief introduction - what is this and why does it matter?]\n\n## What It Does\n\n[Clear explanation of the abstraction's purpose]\n\n## Key Code\n\n[Show relevant code snippets with explanations]\n\n## How It Works\n\n[Step-by-step explanation of the implementation]\n\n## Key Takeaways\n\n- [Important point 1]\n- [Important point 2]\n- [Important point 3]\n\nOUTPUT: Return ONLY the markdown content, no meta-commentary.\n"

/-- The `WriteChapter` prompt (`none` when the related-files loop
panics on a negative index). -/
def buildChapterPrompt (inp : WriteChapterInput) : Option String :=
  (wcFileContext inp.files inp.abstraction.fileIndices).map fun fc =>
    wcT1 ++ inp.projectName ++ wcT2 ++ inp.abstraction.name ++ wcT3 ++
      inp.abstraction.description ++ wcT4 ++ fc ++ wcT5 ++
      prevContext inp.previousChapters ++ wcT6 ++ inp.abstraction.name ++ wcT7

/-- Comparator for the order-sensitivity claim: the same prompt built
with no previously-covered-chapters component at all. This definition
does not read `previousChapters`. -/
def buildChapterPromptNoPrev (inp : WriteChapterInput) : Option String :=
  (wcFileContext inp.files inp.abstraction.fileIndices).map fun fc =>
    wcT1 ++ inp.projectName ++ wcT2 ++ inp.abstraction.name ++ wcT3 ++
      inp.abstraction.description ++ wcT4 ++ fc ++ wcT5 ++ "" ++
      wcT6 ++ inp.abstraction.name ++ wcT7

/-! ## AnalyzeRelationships: code-context construction -/

/-- The per-file content sample of the relationship code context
(500-character cap with an ellipsis). -/
def relFileSample (content : String) : String :=
  if content.data.length > 500 then (⟨content.data.take 500⟩ : String) ++ "..."
  else content

/-- The related-files loop of the relationship code context: the guard
is `fileIdx < len(input.Files)` only, so an index at or above the
corpus size is silently skipped, and a negative index reaches
`input.Files[fileIdx]` and panics (`none`). -/
def relFilesCtx (files : List FileContent) : List Int → Option String
  | [] => some ""
  | fi :: rest =>
      if fi < (files.length : Int) then
        match goIndex files fi with
        | none => none
        | some f =>
            (relFilesCtx files rest).map
              ("  File " ++ intStr fi ++ " (" ++ f.path ++ "):\n" ++
                relFileSample f.content ++ "\n\n" ++ ·)
      else relFilesCtx files rest

/-- One abstraction's block of the relationship code context. -/
def relAbsEntry (files : List FileContent) (a : Abstraction) : Option String :=
  (relFilesCtx files a.fileIndices).map
    ("\n### Abstraction " ++ intStr a.index ++ ": " ++ a.name ++ "\n" ++
      "Related files:\n" ++ ·)

/-- The full code context of `AnalyzeRelationships` over all
abstractions. -/
def relCodeContext (files : List FileContent) : List Abstraction → Option String
  | [] => some ""
  | a :: rest =>
      match relAbsEntry files a with
      | none => none
      | some s => (relCodeContext files rest).map (s ++ ·)

/-- Comparator for the skip claim: the relationship code-context
related-files text over only the in-bounds indices, total. -/
def relFilesCtxTotal (files : List FileContent) (indices : List Int) : String :=
  match indices with
  | [] => ""
  | fi :: rest =>
      match (if 0 ≤ fi ∧ fi < (files.length : Int) then files.get? fi.toNat else none) with
      | some f =>
          "  File " ++ intStr fi ++ " (" ++ f.path ++ "):\n" ++
            relFileSample f.content ++ "\n\n" ++ relFilesCtxTotal files rest
      | none => relFilesCtxTotal files rest

/-- Comparator for the skip claim: the `WriteChapter` related-files
entries over only the in-bounds indices, total. -/
def wcFileEntriesTotal (files : List FileContent) (indices : List Int) : String :=
  match indices with
  | [] => ""
  | fi :: rest =>
      match (if 0 ≤ fi ∧ fi < (files.length : Int) then files.get? fi.toNat else none) with
      | some f => wcFileEntry f ++ wcFileEntriesTotal files rest
      | none => wcFileEntriesTotal files rest

/-! ## TutorialWorkflow.Run (orchestrator) -/

/-- `types.RelationshipData`. -/
structure RelationshipData where
  summary : String
  details : List Relationship
deriving DecidableEq, Repr

/-- The outcomes of the external calls a run makes: each stage's
service call result (the generator is non-deterministic, so these are
parameters of the run), plus which file writes fail. -/
structure StageOutcomes where
  readRes : Except String (List FileContent)
  absRes : Except String (List Abstraction)
  relRes : Except String RelationshipData
  orderRes : Except String (List Int)
  chapterRes : Nat → Except String Chapter
  writeFails : String → Bool

/-- The chapter-summary derivation of the workflow loop: truncate the
content to 200 characters, remove `#`, trim whitespace. -/
def chapterSummaryOf (ch : Chapter) : ChapterSummary :=
  let s : String :=
    if ch.content.data.length > 200 then (⟨ch.content.data.take 200⟩ : String) ++ "..."
    else ch.content
  ⟨ch.title, ⟨goTrimSpace (s.data.filter (· != '#'))⟩⟩

/-- The chapter loop of `TutorialWorkflow.Run`: index the abstraction
list by each planned index (a panic on an out-of-range index is an
aborting failure), invoke the chapter writer, and accumulate summaries
in order. -/
def chapterLoop (oc : StageOutcomes) (abstractions : List Abstraction) :
    List Int → Nat → List ChapterSummary → List Chapter →
    Except String (List Chapter)
  | [], _, _, chapters => .ok chapters.reverse
  | absIndex :: rest, i, prev, chapters =>
      match goIndex abstractions absIndex with
      | none => .error "panic: index out of range"
      | some _abstraction =>
          match oc.chapterRes i with
          | .error e => .error ("failed to write chapter: " ++ e)
          | .ok ch =>
              chapterLoop oc abstractions rest (i + 1)
                (prev ++ [chapterSummaryOf ch]) (ch :: chapters)

/-- `TutorialWorkflow.Run`: the fixed stage sequence with fail-fast
propagation, threading the on-disk state `fs`, which only the final
emission step may change. -/
def runWorkflow (oc : StageOutcomes) (outDir : String)
    (fs : List (String × String)) :
    List (String × String) × Except String (List String) :=
  match oc.readRes with
  | .error e => (fs, .error ("failed to read files: " ++ e))
  | .ok files =>
      if files.isEmpty then (fs, .error "no files found in repository")
      else
        match oc.absRes with
        | .error e => (fs, .error ("failed to analyze abstractions: " ++ e))
        | .ok abstractions =>
            if abstractions.isEmpty then (fs, .error "no abstractions identified")
            else
              match oc.relRes with
              | .error e => (fs, .error ("failed to analyze relationships: " ++ e))
              | .ok _ =>
                  match oc.orderRes with
                  | .error e => (fs, .error ("failed to order chapters: " ++ e))
                  | .ok order =>
                      match chapterLoop oc abstractions order 0 [] [] with
                      | .error e => (fs, .error e)
                      | .ok chapters =>
                          writeMarkdownFiles oc.writeFails fs outDir chapters

/-! ## Additional definitions used by the claim statements -/

/-- A canonical unsigned decimal literal: digits only, no leading zero
except the literal `"0"` itself. -/
def isCanonicalNat (cs : List Char) : Bool :=
  match cs with
  | [] => false
  | [c] => isDigitChar c
  | c :: rest => isDigitChar c && c != '0' && rest.all isDigitChar

/-- A canonical signed decimal literal, i.e. the exact form `intStr`
produces: an optional minus sign (never on zero) before a canonical
unsigned literal. -/
def isCanonicalInt (cs : List Char) : Bool :=
  match cs with
  | '-' :: rest => isCanonicalNat rest && rest != [ '0' ]
  | _ => isCanonicalNat cs

/-- The separator of the annotated reference form of the claim. -/
def hashSep : List Char := (" # ").data

/-- The reference shapes the claim enumerates: a bare integer, the
decimal string of an integer, or a decimal string followed by
`" # <trailing text>"`. Per the claim, every other value fails. -/
def isClaimShape : YamlVal → Bool
  | .int _ => true
  | .str s =>
      isCanonicalInt s.data ||
        (containsSub hashSep s.data && isCanonicalInt (beforeFirst hashSep s.data))
  | .other => false

/-- The specification-side sanitizer: lowercase, map outside `[a-z0-9]`
to underscore, collapse every run of underscores to a single one, trim
edge underscores. Compared against `sanitizeFilename` below. -/
def sanitizeSpec (s : String) : String :=
  ⟨trimUnderscores (collapseRunsSpec ((s.data.map goToLowerChar).map sanitizeMapChar))⟩

/-- Go `strings.Contains` on `String`. -/
def containsStr (sub s : String) : Bool :=
  containsSub sub.data s.data

/-- The backtick character (obtained from a string literal). -/
def btChar : Char := ("`").data.headI

/-- The write-failure oracle of the C5 counterexample: exactly the
second chapter's file fails to write. -/
def wfEx : String → Bool := fun s => s == "out/02_a.md"

/-- Concrete stage outcomes reaching emission with two chapters. -/
def ocEx : StageOutcomes :=
  ⟨.ok [⟨0, "f.go", "src"⟩], .ok [⟨0, "A", "D", []⟩], .ok ⟨"s", []⟩, .ok [0, 0],
    fun i => if i = 0 then .ok ⟨1, "a", "x"⟩ else .ok ⟨2, "a", "x"⟩, wfEx⟩

/-! ## Lemmas: decimal strings and `extractIndex` -/

theorem digitChar_toNat (d : Nat) (h : d < 10) : (digitChar d).toNat = 48 + d := by
  interval_cases d <;> rfl

theorem isDigitChar_digitChar (d : Nat) (h : d < 10) : isDigitChar (digitChar d) = true := by
  simp only [isDigitChar, digitChar_toNat d h, Bool.and_eq_true, decide_eq_true_eq]
  omega

theorem natChars_ne_nil (n : Nat) : natChars n ≠ [] := by
  rw [natChars]
  split
  · simp
  · simp

theorem natChars_all_digit (n : Nat) : ∀ c ∈ natChars n, isDigitChar c = true := by
  induction n using Nat.strong_induction_on with
  | _ n ih =>
    rw [natChars]
    split
    · intro c hc
      simp only [List.mem_singleton] at hc
      subst hc
      exact isDigitChar_digitChar n (by omega)
    · intro c hc
      rw [List.mem_append] at hc
      rcases hc with hc | hc
      · exact ih (n / 10) (Nat.div_lt_self (by omega) (by omega)) c hc
      · simp only [List.mem_singleton] at hc
        subst hc
        exact isDigitChar_digitChar _ (Nat.mod_lt _ (by omega))

theorem parseNatAux_append (xs ys : List Char) (acc : Nat) :
    parseNatAux (xs ++ ys) acc =
      match parseNatAux xs acc with
      | some a => parseNatAux ys a
      | none => none := by
  induction xs generalizing acc with
  | nil => rfl
  | cons c rest ih =>
    simp only [List.cons_append, parseNatAux, List.append_eq]
    by_cases h : isDigitChar c
    · rw [if_pos h, if_pos h, ih]
    · rw [if_neg h, if_neg h]

theorem parseNatAux_natChars (n : Nat) :
    ∀ acc, ∃ k, parseNatAux (natChars n) acc = some (acc * 10 ^ k + n) := by
  induction n using Nat.strong_induction_on with
  | _ n ih =>
    intro acc
    rw [natChars]
    split
    · refine ⟨1, ?_⟩
      rename_i h
      simp only [parseNatAux, isDigitChar_digitChar n h, if_true, digitChar_toNat n h]
      congr 1
      omega
    · rename_i h
      obtain ⟨k, hk⟩ := ih (n / 10) (Nat.div_lt_self (by omega) (by omega)) acc
      rw [parseNatAux_append, hk]
      refine ⟨k + 1, ?_⟩
      have h10 : n % 10 < 10 := Nat.mod_lt _ (by omega)
      simp only [parseNatAux, isDigitChar_digitChar _ h10, if_true, digitChar_toNat _ h10]
      congr 1
      have := Nat.div_add_mod n 10
      ring_nf
      omega

theorem parseNatDigits_natChars (n : Nat) : parseNatDigits (natChars n) = some n := by
  obtain ⟨k, hk⟩ := parseNatAux_natChars n 0
  rcases hcs : natChars n with _ | ⟨c, rest⟩
  · exact absurd hcs (natChars_ne_nil n)
  · simp only [parseNatDigits]
    rw [← hcs, hk]
    simp

theorem dropWhile_eq_of_all {p : Char → Bool} :
    ∀ cs : List Char, (∀ c ∈ cs, p c = false) → cs.dropWhile p = cs := by
  intro cs h
  cases cs with
  | nil => rfl
  | cons c rest =>
    rw [List.dropWhile_cons, h c (by simp)]
    simp

theorem goTrimSpace_eq_of_all (cs : List Char)
    (h : ∀ c ∈ cs, isGoSpace c = false) : goTrimSpace cs = cs := by
  unfold goTrimSpace
  rw [dropWhile_eq_of_all cs h, dropWhile_eq_of_all cs.reverse, List.reverse_reverse]
  intro c hc
  exact h c (List.mem_reverse.mp hc)

theorem goTrimSpace_append_space (cs : List Char)
    (hne : cs ≠ []) (h : ∀ c ∈ cs, isGoSpace c = false) :
    goTrimSpace (cs ++ [' ']) = cs := by
  unfold goTrimSpace
  rcases cs with _ | ⟨c, rest⟩
  · exact absurd rfl hne
  · rw [List.cons_append, List.dropWhile_cons, h c (by simp)]
    simp only [Bool.false_eq_true, if_false]
    have hrev : (c :: (rest ++ [' '])).reverse = ' ' :: (rest.reverse ++ [c]) := by
      simp
    rw [hrev, List.dropWhile_cons]
    have hsp : isGoSpace ' ' = true := by decide
    rw [hsp]
    simp only [if_true]
    have hall : ∀ x ∈ rest.reverse ++ [c], isGoSpace x = false := by
      intro x hx
      rcases List.mem_append.mp hx with hx | hx
      · exact h x (by simp [List.mem_reverse.mp hx])
      · simp only [List.mem_singleton] at hx
        subst hx
        exact h x (by simp)
    rw [dropWhile_eq_of_all _ hall]
    simp

theorem digit_ne_chars {c : Char} (h : isDigitChar c = true) :
    c ≠ '#' ∧ c ≠ '-' ∧ c ≠ '+' ∧ isGoSpace c = false := by
  have hc : 48 ≤ c.toNat ∧ c.toNat ≤ 57 := by
    simpa only [isDigitChar, Bool.and_eq_true, decide_eq_true_eq] using h
  refine ⟨?_, ?_, ?_, ?_⟩
  · intro he; rw [he] at hc; exact absurd hc (by decide)
  · intro he; rw [he] at hc; exact absurd hc (by decide)
  · intro he; rw [he] at hc; exact absurd hc (by decide)
  · simp only [isGoSpace, Bool.or_eq_false_iff, beq_eq_false_iff_ne, ne_eq]
    omega

theorem goAtoi_natChars (m : Nat) (hm : m ≤ 2 ^ 63 - 1) :
    goAtoi (natChars m) = some (m : Int) := by
  rcases hcs : natChars m with _ | ⟨c, rest⟩
  · exact absurd hcs (natChars_ne_nil m)
  · have hd : isDigitChar c = true := by
      apply natChars_all_digit m
      rw [hcs]; simp
    obtain ⟨-, hminus, hplus, -⟩ := digit_ne_chars hd
    simp only [goAtoi, if_neg hminus, if_neg hplus]
    rw [← hcs, parseNatDigits_natChars]
    have hm2 : m ≤ 9223372036854775807 := by omega
    simp [hm2]

theorem goAtoi_neg_natChars (m : Nat) (hm : m ≤ 2 ^ 63) :
    goAtoi ('-' :: natChars m) = some (-(m : Int)) := by
  simp only [goAtoi, if_pos rfl]
  rw [parseNatDigits_natChars]
  have hm2 : m ≤ 9223372036854775808 := by omega
  simp [hm2]

theorem intStr_data_nonneg (n : Int) (h : 0 ≤ n) :
    (intStr n).data = natChars n.toNat := by
  unfold intStr
  rw [if_neg (by omega)]

theorem intStr_data_neg (n : Int) (h : n < 0) :
    (intStr n).data = '-' :: natChars (-n).toNat := by
  unfold intStr
  rw [if_pos h]

theorem intStr_no_hash (n : Int) : ∀ c ∈ (intStr n).data, c ≠ '#' := by
  intro c hc
  by_cases h : 0 ≤ n
  · rw [intStr_data_nonneg n h] at hc
    exact (digit_ne_chars (natChars_all_digit _ c hc)).1
  · rw [intStr_data_neg n (by omega)] at hc
    rcases List.mem_cons.mp hc with rfl | hc2
    · decide
    · exact (digit_ne_chars (natChars_all_digit _ c hc2)).1

theorem intStr_no_space (n : Int) : ∀ c ∈ (intStr n).data, isGoSpace c = false := by
  intro c hc
  by_cases h : 0 ≤ n
  · rw [intStr_data_nonneg n h] at hc
    exact (digit_ne_chars (natChars_all_digit _ c hc)).2.2.2
  · rw [intStr_data_neg n (by omega)] at hc
    rcases List.mem_cons.mp hc with rfl | hc2
    · decide
    · exact (digit_ne_chars (natChars_all_digit _ c hc2)).2.2.2

theorem containsSub_single_eq_false {c : Char} :
    ∀ cs : List Char, (∀ x ∈ cs, x ≠ c) → containsSub [c] cs = false := by
  intro cs h
  induction cs with
  | nil => rfl
  | cons x rest ih =>
    simp only [containsSub, List.isPrefixOf, Bool.or_eq_false_iff, Bool.and_eq_false_iff]
    constructor
    · left
      simp only [beq_eq_false_iff_ne, ne_eq]
      exact fun he => h x (by simp) he.symm
    · exact ih fun y hy => h y (by simp [hy])

theorem goAtoi_intStr (n : Int) (hlo : -(2 ^ 63) ≤ n) (hhi : n < 2 ^ 63) :
    goAtoi ((intStr n).data) = some n := by
  by_cases h : 0 ≤ n
  · rw [intStr_data_nonneg n h, goAtoi_natChars n.toNat (by omega)]
    congr 1
    omega
  · rw [intStr_data_neg n (by omega), goAtoi_neg_natChars (-n).toNat (by omega)]
    congr 1
    omega

theorem extractIndex_intStr (n : Int) (hlo : -(2 ^ 63) ≤ n) (hhi : n < 2 ^ 63) :
    extractIndex (.str (intStr n)) = .ok n := by
  simp only [extractIndex]
  rw [containsSub_single_eq_false _ (intStr_no_hash n)]
  simp only [Bool.false_eq_true, if_false]
  rw [goTrimSpace_eq_of_all _ (intStr_no_space n), goAtoi_intStr n hlo hhi]

theorem beforeFirst_cons_head {c0 : Char} {tl : List Char} :
    ∀ A Y : List Char, (∀ x ∈ A, x ≠ c0) →
      beforeFirst (c0 :: tl) (A ++ Y) = A ++ beforeFirst (c0 :: tl) Y := by
  intro A Y h
  induction A with
  | nil => rfl
  | cons a A' ih =>
    simp only [List.cons_append, beforeFirst, List.isPrefixOf, List.append_eq]
    have hne : (c0 == a) = false := by
      simp only [beq_eq_false_iff_ne, ne_eq]
      exact fun he => h a (by simp) he.symm
    simp only [hne, Bool.false_and, Bool.false_eq_true, if_false, List.cons.injEq, true_and]
    exact ih fun y hy => h y (by simp [hy])

theorem containsSub_single_of_mem {c : Char} :
    ∀ cs : List Char, c ∈ cs → containsSub [c] cs = true := by
  intro cs h
  induction cs with
  | nil => simp at h
  | cons x rest ih =>
    simp only [containsSub, List.isPrefixOf, Bool.or_eq_true, Bool.and_eq_true]
    rcases List.mem_cons.mp h with rfl | h2
    · left
      simp [List.isPrefixOf]
    · right
      exact ih h2

theorem intStr_data_ne_nil (n : Int) : (intStr n).data ≠ [] := by
  by_cases h : 0 ≤ n
  · rw [intStr_data_nonneg n h]
    exact natChars_ne_nil _
  · rw [intStr_data_neg n (by omega)]
    simp

theorem extractIndex_annotated (n : Int) (t : String)
    (hlo : -(2 ^ 63) ≤ n) (hhi : n < 2 ^ 63) :
    extractIndex (.str (intStr n ++ " # " ++ t)) = .ok n := by
  have hdata : (intStr n ++ " # " ++ t).data =
      ((intStr n).data ++ [' ']) ++ ('#' :: (' ' :: t.data)) := by
    rw [String.data_append, String.data_append]
    simp [List.append_assoc]
  simp only [extractIndex, hdata]
  have hhash : containsSub [ '#' ] (((intStr n).data ++ [' ']) ++ ('#' :: (' ' :: t.data))) = true := by
    apply containsSub_single_of_mem
    simp
  rw [hhash]
  simp only [if_true]
  have hnh : ∀ x ∈ (intStr n).data ++ [' '], x ≠ '#' := by
    intro x hx
    rcases List.mem_append.mp hx with hx | hx
    · exact intStr_no_hash n x hx
    · simp only [List.mem_singleton] at hx
      subst hx
      decide
  rw [beforeFirst_cons_head _ _ hnh]
  have hbf : beforeFirst [ '#' ] ('#' :: (' ' :: t.data)) = [] := by
    simp [beforeFirst, List.isPrefixOf]
  rw [hbf, List.append_nil,
    goTrimSpace_append_space _ (intStr_data_ne_nil n) (intStr_no_space n),
    goAtoi_intStr n hlo hhi]

/-! ## Claim C4: cross-reference resolver formats -/

/-- C4, counterexample: the string `" 3"` (leading whitespace) is none
of the claim's three reference shapes, yet `extractIndex` resolves it
to 3 instead of failing — the resolver trims whitespace before
parsing, so the claim's "any value of another shape fails with an
invalid-reference error" is false as stated. -/
theorem extractIndex_claim_counterexample :
    isClaimShape (.str " 3") = false ∧ extractIndex (.str " 3") = .ok 3 := by
  constructor
  · decide
  · rfl

/-- C4 (amended): the resolver is format-agnostic on the enumerated
shapes — for every 64-bit integer `n`, the bare integer `n`, the string
`"n"`, and the string `"n # <trailing text>"` all resolve to `n`, and a
value that is neither an integer nor a string fails with an
invalid-reference error; string parsing is lenient, so a string such as
`" 3"` with surrounding whitespace also resolves (to 3) rather than
failing. -/
theorem extractIndex_format_agnostic (n : Int) (t : String)
    (hlo : -(2 ^ 63) ≤ n) (hhi : n < 2 ^ 63) :
    extractIndex (.int n) = .ok n ∧
    extractIndex (.str (intStr n)) = .ok n ∧
    extractIndex (.str (intStr n ++ " # " ++ t)) = .ok n ∧
    extractIndex .other = .error .badType ∧
    extractIndex (.str " 3") = .ok 3 := by
  exact ⟨rfl, extractIndex_intStr n hlo hhi, extractIndex_annotated n t hlo hhi, rfl, rfl⟩

/-- C4, witness: the amended theorem applied at `n = 3`,
`t = "Foo"`. -/
theorem extractIndex_format_agnostic_witness :
    extractIndex (.int 3) = .ok 3 ∧
    extractIndex (.str (intStr 3)) = .ok 3 ∧
    extractIndex (.str (intStr 3 ++ " # " ++ "Foo")) = .ok 3 ∧
    extractIndex .other = .error .badType ∧
    extractIndex (.str " 3") = .ok 3 :=
  extractIndex_format_agnostic 3 "Foo" (by decide) (by decide)

/-! ## Claims C2 and C10: AnalyzeAbstractions -/

theorem convertAbs_index (numFiles : Nat) :
    ∀ (ys : List YamlAbstraction) (i : Nat) (out : List Abstraction),
      convertAbs numFiles ys i = .ok out →
      ∀ k a, out.get? k = some a → a.index = ((i + k : Nat) : Int) := by
  intro ys
  induction ys with
  | nil =>
    intro i out hok k a hk
    simp only [convertAbs] at hok
    cases hok
    simp at hk
  | cons ya rest ih =>
    intro i out hok k a hk
    simp only [convertAbs] at hok
    rcases hfind : ya.files.find? (fun fi => decide (fi < 0) || decide ((numFiles : Int) ≤ fi)) with _ | fi
    · rw [hfind] at hok
      rcases hrec : convertAbs numFiles rest (i + 1) with e | tl
      · rw [hrec] at hok
        cases hok
      · rw [hrec] at hok
        simp only [Except.map_ok] at hok
        cases hok
        rcases k with _ | k
        · simp only [List.get?_cons_zero, Option.some.injEq] at hk
          subst hk
          simp
        · simp only [List.get?_cons_succ] at hk
          have := ih (i + 1) tl hrec k a hk
          rw [this]
          congr 1
          omega
    · rw [hfind] at hok
      cases hok

/-- C2: for every successful run of the abstraction extractor, the
`k`-th abstraction of the output carries index `k` — indices are
re-derived from the output position (the parsed YAML shape has no index
field, so a generator-proposed index cannot even reach this code). -/
theorem analyzeAbstractions_index_positional (numFiles : Nat) (maxAbs : Int)
    (parsed : List YamlAbstraction) (out : List Abstraction)
    (hok : analyzeAbstractionsPost numFiles maxAbs parsed = .ok out) :
    ∀ k a, out.get? k = some a → a.index = (k : Int) := by
  intro k a hk
  unfold analyzeAbstractionsPost at hok
  split at hok
  · cases hok
  · rcases htr : (if (parsed.length : Int) > maxAbs then
        (if maxAbs < 0 then none else some (parsed.take maxAbs.toNat))
      else some parsed) with _ | truncated
    · rw [htr] at hok
      cases hok
    · rw [htr] at hok
      have := convertAbs_index numFiles truncated 0 out hok k a hk
      simpa using this

/-- C2, witness: a two-entry parse converts with indices 0 and 1. -/
theorem analyzeAbstractions_index_positional_witness :
    analyzeAbstractionsPost 1 10 [⟨"A", "d", [0]⟩, ⟨"B", "e", []⟩] =
      .ok [⟨0, "A", "d", [0]⟩, ⟨1, "B", "e", []⟩] ∧
    (⟨1, "B", "e", []⟩ : Abstraction).index = ((1 : Nat) : Int) :=
  ⟨by rfl,
    analyzeAbstractions_index_positional 1 10 [⟨"A", "d", [0]⟩, ⟨"B", "e", []⟩]
      [⟨0, "A", "d", [0]⟩, ⟨1, "B", "e", []⟩] (by rfl) 1 ⟨1, "B", "e", []⟩ (by rfl)⟩

theorem convertAbs_ne_noAbstractions (numFiles : Nat) :
    ∀ (ys : List YamlAbstraction) (i : Nat),
      convertAbs numFiles ys i ≠ .error .noAbstractions := by
  intro ys
  induction ys with
  | nil =>
    intro i h
    simp [convertAbs] at h
  | cons ya rest ih =>
    intro i h
    simp only [convertAbs] at h
    rcases hfind : ya.files.find? (fun fi => decide (fi < 0) || decide ((numFiles : Int) ≤ fi)) with _ | fi
    · rw [hfind] at h
      rcases hrec : convertAbs numFiles rest (i + 1) with e | tl
      · rw [hrec] at h
        simp only [Except.map] at h
        cases h
        exact ih (i + 1) hrec
      · rw [hrec] at h
        simp [Except.map] at h
    · rw [hfind] at h
      cases h

/-- C10: the "no abstractions identified" failure of the abstraction
extractor happens exactly when the parsed list is empty, and the check
precedes the ceiling truncation: with `MaxAbstractions = 0` and a
non-empty parse, the stage succeeds with an empty abstraction list. -/
theorem analyzeAbstractions_empty_before_truncation (numFiles : Nat) (maxAbs : Int)
    (parsed : List YamlAbstraction) :
    (analyzeAbstractionsPost numFiles maxAbs parsed = .error .noAbstractions ↔ parsed = []) ∧
    (parsed ≠ [] → maxAbs = 0 → analyzeAbstractionsPost numFiles maxAbs parsed = .ok []) := by
  constructor
  · constructor
    · intro h
      by_contra hne
      unfold analyzeAbstractionsPost at h
      rw [if_neg (by simpa using hne)] at h
      rcases htr : (if (parsed.length : Int) > maxAbs then
          (if maxAbs < 0 then none else some (parsed.take maxAbs.toNat))
        else some parsed) with _ | truncated
      · rw [htr] at h
        cases h
      · rw [htr] at h
        exact convertAbs_ne_noAbstractions numFiles truncated 0 h
    · intro h
      subst h
      rfl
  · intro hne hmax
    subst hmax
    unfold analyzeAbstractionsPost
    rw [if_neg (by simpa using hne)]
    have hgt : (parsed.length : Int) > 0 := by
      have : parsed.length ≠ 0 := by simpa using hne
      omega
    rw [if_pos hgt, if_neg (by omega)]
    simp [Int.toNat_zero, List.take_zero, convertAbs]

/-- C10, witness: a non-empty one-entry parse with a zero ceiling
succeeds with an empty output. -/
theorem analyzeAbstractions_empty_before_truncation_witness :
    ([⟨"A", "d", []⟩] : List YamlAbstraction) ≠ [] ∧
    analyzeAbstractionsPost 3 0 [⟨"A", "d", []⟩] = .ok [] :=
  ⟨by simp,
    (analyzeAbstractions_empty_before_truncation 3 0 [⟨"A", "d", []⟩]).2 (by simp) rfl⟩

/-! ## Claim C1: OrderChapters permutation validation -/

theorem orderLoop_ok (n : Nat) :
    ∀ (vals : List YamlVal) (pos : Nat) (seen acc : List Int) (order seenF : List Int),
      orderLoop n vals pos seen acc = .ok (order, seenF) →
      ∃ idxs, resolveAll vals = some idxs ∧
        (∀ x ∈ idxs, 0 ≤ x ∧ x < (n : Int)) ∧
        order = acc.reverse ++ idxs ∧
        seenF = idxs.reverse ++ seen ∧
        idxs.Nodup ∧ (∀ x ∈ idxs, x ∉ seen) := by
  intro vals
  induction vals with
  | nil =>
    intro pos seen acc order seenF h
    simp only [orderLoop, Except.ok.injEq, Prod.mk.injEq] at h
    obtain ⟨h1, h2⟩ := h
    exact ⟨[], rfl, by simp, by simp [h1.symm], by simp [h2.symm], by simp, by simp⟩
  | cons v rest ih =>
    intro pos seen acc order seenF h
    simp only [orderLoop] at h
    rcases hex : extractIndex v with e | idx
    · rw [hex] at h
      cases h
    · simp only [hex] at h
      by_cases hb : idx < 0 ∨ (n : Int) ≤ idx
      · rw [if_pos hb] at h
        cases h
      · rw [if_neg hb] at h
        by_cases hm : idx ∈ seen
        · rw [if_pos hm] at h
          cases h
        · rw [if_neg hm] at h
          obtain ⟨idxs', hres, hbnd, hord, hseen, hnd, hns⟩ :=
            ih (pos + 1) (idx :: seen) (idx :: acc) order seenF h
          refine ⟨idx :: idxs', ?_, ?_, ?_, ?_, ?_, ?_⟩
          · simp [resolveAll, hex, hres]
          · intro x hx
            rcases List.mem_cons.mp hx with rfl | hx2
            · omega
            · exact hbnd x hx2
          · rw [hord]
            simp
          · rw [hseen]
            simp
          · refine List.Nodup.cons ?_ hnd
            intro hmem
            exact (hns idx hmem) (by simp)
          · intro x hx
            rcases List.mem_cons.mp hx with rfl | hx2
            · exact hm
            · intro hxs
              exact (hns x hx2) (by simp [hxs])

theorem orderLoop_complete (n : Nat) :
    ∀ (vals : List YamlVal) (idxs : List Int) (pos : Nat) (seen acc : List Int),
      resolveAll vals = some idxs →
      (∀ x ∈ idxs, 0 ≤ x ∧ x < (n : Int)) →
      idxs.Nodup →
      (∀ x ∈ idxs, x ∉ seen) →
      orderLoop n vals pos seen acc = .ok (acc.reverse ++ idxs, idxs.reverse ++ seen) := by
  intro vals
  induction vals with
  | nil =>
    intro idxs pos seen acc hres hbnd hnd hns
    simp only [resolveAll, Option.some.injEq] at hres
    subst hres
    simp [orderLoop]
  | cons v rest ih =>
    intro idxs pos seen acc hres hbnd hnd hns
    simp only [resolveAll] at hres
    rcases hex : extractIndex v with e | i
    · rw [hex] at hres
      cases hres
    · rw [hex] at hres
      rcases hr : resolveAll rest with _ | tl
      · rw [hr] at hres
        cases hres
      · rw [hr] at hres
        simp only [Option.map] at hres
        cases hres
        simp only [orderLoop, hex]
        have hib : 0 ≤ i ∧ i < (n : Int) := hbnd i (by simp)
        rw [if_neg (by omega)]
        rw [if_neg (hns i (by simp))]
        have htl : orderLoop n rest (pos + 1) (i :: seen) (i :: acc) =
            .ok ((i :: acc).reverse ++ tl, tl.reverse ++ (i :: seen)) := by
          apply ih tl (pos + 1) (i :: seen) (i :: acc) hr
          · intro x hx
            exact hbnd x (by simp [hx])
          · exact (List.nodup_cons.mp hnd).2
          · intro x hx
            intro hxm
            rcases List.mem_cons.mp hxm with rfl | hx2
            · exact (List.nodup_cons.mp hnd).1 hx
            · exact (hns x (by simp [hx])) hx2
        rw [htl]
        simp

theorem orderLoop_oob (n : Nat) :
    ∀ (vals : List YamlVal) (pos : Nat) (seen acc : List Int) (v : Int) (p : Nat),
      orderLoop n vals pos seen acc = .error (.outOfBounds v p) →
      ∃ j w, p = pos + j ∧ vals.get? j = some w ∧ extractIndex w = .ok v ∧
        (v < 0 ∨ (n : Int) ≤ v) := by
  intro vals
  induction vals with
  | nil =>
    intro pos seen acc v p h
    simp [orderLoop] at h
  | cons val rest ih =>
    intro pos seen acc v p h
    simp only [orderLoop] at h
    rcases hex : extractIndex val with e | idx
    · rw [hex] at h
      cases h
    · simp only [hex] at h
      by_cases hb : idx < 0 ∨ (n : Int) ≤ idx
      · rw [if_pos hb] at h
        simp only [Except.error.injEq, OrderErr.outOfBounds.injEq] at h
        obtain ⟨rfl, rfl⟩ := h
        exact ⟨0, val, by omega, rfl, hex, hb⟩
      · rw [if_neg hb] at h
        by_cases hm : idx ∈ seen
        · rw [if_pos hm] at h
          cases h
        · rw [if_neg hm] at h
          obtain ⟨j, w, hp, hg, he, hv⟩ := ih (pos + 1) (idx :: seen) (idx :: acc) v p h
          exact ⟨j + 1, w, by omega, by simpa using hg, he, hv⟩

theorem orderLoop_dup (n : Nat) :
    ∀ (vals : List YamlVal) (pos : Nat) (seen acc : List Int) (v : Int),
      orderLoop n vals pos seen acc = .error (.duplicate v) →
      ∃ j w, vals.get? j = some w ∧ extractIndex w = .ok v ∧
        (v ∈ seen ∨ ∃ i wi, i < j ∧ vals.get? i = some wi ∧ extractIndex wi = .ok v) := by
  intro vals
  induction vals with
  | nil =>
    intro pos seen acc v h
    simp [orderLoop] at h
  | cons val rest ih =>
    intro pos seen acc v h
    simp only [orderLoop] at h
    rcases hex : extractIndex val with e | idx
    · rw [hex] at h
      cases h
    · simp only [hex] at h
      by_cases hb : idx < 0 ∨ (n : Int) ≤ idx
      · rw [if_pos hb] at h
        cases h
      · rw [if_neg hb] at h
        by_cases hm : idx ∈ seen
        · rw [if_pos hm] at h
          simp only [Except.error.injEq, OrderErr.duplicate.injEq] at h
          subst h
          exact ⟨0, val, rfl, hex, Or.inl hm⟩
        · rw [if_neg hm] at h
          obtain ⟨j, w, hg, he, hcase⟩ := ih (pos + 1) (idx :: seen) (idx :: acc) v h
          rcases hcase with hseen | ⟨i, wi, hij, hgi, hei⟩
          · rcases List.mem_cons.mp hseen with rfl | hs2
            · exact ⟨j + 1, w, by simpa using hg, he,
                Or.inr ⟨0, val, by omega, rfl, hex⟩⟩
            · exact ⟨j + 1, w, by simpa using hg, he, Or.inl hs2⟩
          · exact ⟨j + 1, w, by simpa using hg, he,
              Or.inr ⟨i + 1, wi, by omega, by simpa using hgi, hei⟩⟩

theorem nodup_bounded_length_le (idxs : List Int) (n : Nat)
    (hnd : idxs.Nodup) (hb : ∀ x ∈ idxs, 0 ≤ x ∧ x < (n : Int)) :
    idxs.length ≤ n := by
  have hcard : idxs.toFinset.card = idxs.length := List.toFinset_card_of_nodup hnd
  have hsub : idxs.toFinset ⊆ Finset.Icc (0 : Int) ((n : Int) - 1) := by
    intro x hx
    rw [List.mem_toFinset] at hx
    obtain ⟨h1, h2⟩ := hb x hx
    rw [Finset.mem_Icc]
    omega
  have hle := Finset.card_le_card hsub
  rw [hcard, Int.card_Icc] at hle
  omega

theorem perm_range_mem (idxs : List Int) (n : Nat) (hlen : idxs.length = n)
    (hnd : idxs.Nodup) (hb : ∀ x ∈ idxs, 0 ≤ x ∧ x < (n : Int)) :
    ∀ i : Nat, i < n → (i : Int) ∈ idxs := by
  intro i hi
  have hcard : idxs.toFinset.card = n := by
    rw [List.toFinset_card_of_nodup hnd, hlen]
  have hsub : idxs.toFinset ⊆ (Finset.range n).image (fun j : Nat => (j : Int)) := by
    intro x hx
    rw [List.mem_toFinset] at hx
    obtain ⟨h1, h2⟩ := hb x hx
    rw [Finset.mem_image]
    exact ⟨x.toNat, by rw [Finset.mem_range]; omega, by omega⟩
  have hcard2 : ((Finset.range n).image (fun j : Nat => (j : Int))).card = n := by
    rw [Finset.card_image_of_injective _ (fun a b hab => by exact_mod_cast hab)]
    exact Finset.card_range n
  have heq : idxs.toFinset = (Finset.range n).image (fun j : Nat => (j : Int)) :=
    Finset.eq_of_subset_of_card_le hsub (by rw [hcard, hcard2])
  have : (i : Int) ∈ idxs.toFinset := by
    rw [heq, Finset.mem_image]
    exact ⟨i, Finset.mem_range.mpr hi, rfl⟩
  exact List.mem_toFinset.mp this

theorem orderLoop_ne_missing (n : Nat) :
    ∀ (vals : List YamlVal) (pos : Nat) (seen acc : List Int) (m : List Nat),
      orderLoop n vals pos seen acc ≠ .error (.missingAbs m) := by
  intro vals
  induction vals with
  | nil =>
    intro pos seen acc m h
    simp [orderLoop] at h
  | cons v rest ih =>
    intro pos seen acc m h
    simp only [orderLoop] at h
    rcases hex : extractIndex v with e | idx
    · rw [hex] at h
      cases h
    · simp only [hex] at h
      by_cases hb : idx < 0 ∨ (n : Int) ≤ idx
      · rw [if_pos hb] at h
        cases h
      · rw [if_neg hb] at h
        by_cases hm : idx ∈ seen
        · rw [if_pos hm] at h
          cases h
        · rw [if_neg hm] at h
          exact ih (pos + 1) (idx :: seen) (idx :: acc) m h

theorem missing_nonempty (idxs : List Int) (n : Nat) (hlt : idxs.length < n) :
    (List.range n).filter (fun i : Nat => decide (¬ (i : Int) ∈ idxs.reverse)) ≠ [] := by
  intro hempty
  have hall : ∀ i ∈ List.range n, (i : Int) ∈ idxs := by
    intro i hi
    by_contra hni
    have hp : (fun i : Nat => decide (¬ (i : Int) ∈ idxs.reverse)) i = true := by
      simp [List.mem_reverse, hni]
    have hmem : i ∈ (List.range n).filter (fun i : Nat => decide (¬ (i : Int) ∈ idxs.reverse)) :=
      List.mem_filter.mpr ⟨hi, hp⟩
    rw [hempty] at hmem
    simp at hmem
  have hsub : (Finset.range n).image (fun j : Nat => (j : Int)) ⊆ idxs.toFinset := by
    intro x hx
    rw [Finset.mem_image] at hx
    obtain ⟨j, hj, rfl⟩ := hx
    rw [List.mem_toFinset]
    exact hall j (List.mem_range.mpr (Finset.mem_range.mp hj))
  have hcard2 : ((Finset.range n).image (fun j : Nat => (j : Int))).card = n := by
    rw [Finset.card_image_of_injective _ (fun a b hab => by exact_mod_cast hab)]
    exact Finset.card_range n
  have hc := Finset.card_le_card hsub
  rw [hcard2] at hc
  have hle := List.toFinset_card_le idxs
  omega

/-- C1: over `n` abstractions, `OrderChapters` succeeds exactly when the
resolved index list is a permutation of `{0..n-1}` — on success the
order is the resolved list, has length `n`, and contains every index in
`{0..n-1}` exactly once; an out-of-range resolution fails reporting the
value and its position; a duplicate fails reporting the duplicated
value (which occurs at two distinct positions); and the completeness
check fails reporting the full missing set, which is nonempty. -/
theorem orderChapters_permutation (n : Nat) (vals : List YamlVal) :
    (∀ order, orderChapters n vals = .ok order →
        resolveAll vals = some order ∧ order.length = n ∧ order.Nodup ∧
        (∀ x ∈ order, 0 ≤ x ∧ x < (n : Int)) ∧
        (∀ i : Nat, i < n → order.count (i : Int) = 1)) ∧
    ((∃ idxs, resolveAll vals = some idxs ∧ idxs.length = n ∧ idxs.Nodup ∧
        ∀ x ∈ idxs, 0 ≤ x ∧ x < (n : Int)) →
      ∃ order, orderChapters n vals = .ok order) ∧
    (∀ m, orderChapters n vals = .error (.missingAbs m) →
        ∃ idxs, resolveAll vals = some idxs ∧
          m = (List.range n).filter (fun i : Nat => decide (¬ (i : Int) ∈ idxs)) ∧ m ≠ []) ∧
    (∀ v p, orderChapters n vals = .error (.outOfBounds v p) →
        ∃ w, vals.get? p = some w ∧ extractIndex w = .ok v ∧
          (v < 0 ∨ (n : Int) ≤ v)) ∧
    (∀ v, orderChapters n vals = .error (.duplicate v) →
        ∃ i j wi wj, i < j ∧ vals.get? i = some wi ∧ extractIndex wi = .ok v ∧
          vals.get? j = some wj ∧ extractIndex wj = .ok v) := by
  refine ⟨?_, ?_, ?_, ?_, ?_⟩
  · intro order hok
    unfold orderChapters at hok
    rcases hloop : orderLoop n vals 0 [] [] with e | ⟨ord, seen⟩
    · rw [hloop] at hok
      cases hok
    · simp only [hloop] at hok
      by_cases hlen : ord.length ≠ n
      · rw [if_pos hlen] at hok
        cases hok
      · rw [if_neg hlen] at hok
        cases hok
        push_neg at hlen
        obtain ⟨idxs, hres, hbnd, hord, -, hnd, -⟩ :=
          orderLoop_ok n vals 0 [] [] order seen hloop
        simp only [List.reverse_nil, List.nil_append] at hord
        subst hord
        refine ⟨hres, hlen, hnd, hbnd, ?_⟩
        intro i hi
        have hmem := perm_range_mem order n hlen hnd hbnd i hi
        exact List.count_eq_one_of_mem hnd hmem
  · rintro ⟨idxs, hres, hlen, hnd, hbnd⟩
    have hloop := orderLoop_complete n vals idxs 0 [] [] hres hbnd hnd (by simp)
    refine ⟨idxs, ?_⟩
    unfold orderChapters
    rw [hloop]
    simp only [List.reverse_nil, List.nil_append]
    rw [if_neg (by omega)]
  · intro m hmiss
    unfold orderChapters at hmiss
    rcases hloop : orderLoop n vals 0 [] [] with e | ⟨ord, seen⟩
    · rw [hloop] at hmiss
      simp only [Except.error.injEq] at hmiss
      subst hmiss
      exact absurd hloop (orderLoop_ne_missing n vals 0 [] [] m)
    · simp only [hloop] at hmiss
      by_cases hlen : ord.length ≠ n
      · rw [if_pos hlen] at hmiss
        simp only [Except.error.injEq, OrderErr.missingAbs.injEq] at hmiss
        obtain ⟨idxs, hres, hbnd, hord, hseen, hnd, -⟩ :=
          orderLoop_ok n vals 0 [] [] ord seen hloop
        simp only [List.reverse_nil, List.nil_append] at hord
        simp only [List.append_nil] at hseen
        subst hord
        subst hseen
        refine ⟨ord, hres, ?_, ?_⟩
        · rw [← hmiss]
          apply List.filter_congr
          intro i _
          simp [List.mem_reverse]
        · rw [← hmiss]
          have hlt : ord.length < n := by
            have := nodup_bounded_length_le ord n hnd hbnd
            omega
          exact missing_nonempty ord n hlt
      · rw [if_neg hlen] at hmiss
        cases hmiss
  · intro v p hoob
    unfold orderChapters at hoob
    rcases hloop : orderLoop n vals 0 [] [] with e | ⟨ord, seen⟩
    · rw [hloop] at hoob
      simp only [Except.error.injEq] at hoob
      subst hoob
      obtain ⟨j, w, hp, hg, he, hv⟩ := orderLoop_oob n vals 0 [] [] v p hloop
      exact ⟨w, by rw [hp]; simpa using hg, he, hv⟩
    · simp only [hloop] at hoob
      by_cases hlen : ord.length ≠ n
      · rw [if_pos hlen] at hoob
        cases hoob
      · rw [if_neg hlen] at hoob
        cases hoob
  · intro v hdup
    unfold orderChapters at hdup
    rcases hloop : orderLoop n vals 0 [] [] with e | ⟨ord, seen⟩
    · rw [hloop] at hdup
      simp only [Except.error.injEq] at hdup
      subst hdup
      obtain ⟨j, w, hg, he, hcase⟩ := orderLoop_dup n vals 0 [] [] v hloop
      rcases hcase with hseen | ⟨i, wi, hij, hgi, hei⟩
      · simp at hseen
      · exact ⟨i, j, wi, w, hij, hgi, hei, hg, he⟩
    · simp only [hloop] at hdup
      by_cases hlen : ord.length ≠ n
      · rw [if_pos hlen] at hdup
        cases hdup
      · rw [if_neg hlen] at hdup
        cases hdup

/-- C1, witness: for `n = 2` and the proposed order `[1, "0 # Intro"]`,
ordering succeeds with the permutation `[1, 0]`, which has length 2 and
contains index 0 exactly once. -/
theorem orderChapters_permutation_witness :
    orderChapters 2 [YamlVal.int 1, YamlVal.str "0 # Intro"] = .ok [1, 0] ∧
    resolveAll [YamlVal.int 1, YamlVal.str "0 # Intro"] = some [1, 0] ∧
    ([1, 0] : List Int).length = 2 ∧
    ([1, 0] : List Int).count ((0 : Nat) : Int) = 1 :=
  ⟨rfl,
    ((orderChapters_permutation 2 [YamlVal.int 1, YamlVal.str "0 # Intro"]).1 [1, 0] rfl).1,
    ((orderChapters_permutation 2 [YamlVal.int 1, YamlVal.str "0 # Intro"]).1 [1, 0] rfl).2.1,
    ((orderChapters_permutation 2 [YamlVal.int 1, YamlVal.str "0 # Intro"]).1 [1, 0] rfl).2.2.2.2
      0 (by omega)⟩

/-! ## Claim C3: AnalyzeRelationships edge bounds -/

theorem convertRels_ok (n : Nat) :
    ∀ (rels : List YamlRelationship) (i : Nat) (out : List Relationship),
      convertRels n rels i = .ok out →
      ∀ k r, rels.get? k = some r →
        ∃ f t, extractIndex r.fromRef = .ok f ∧ extractIndex r.toRef = .ok t ∧
          0 ≤ f ∧ f < (n : Int) ∧ 0 ≤ t ∧ t < (n : Int) ∧
          out.get? k = some ⟨f, t, r.label⟩ := by
  intro rels
  induction rels with
  | nil =>
    intro i out hok k r hk
    simp at hk
  | cons yr rest ih =>
    intro i out hok k r hk
    simp only [convertRels] at hok
    rcases hf : extractIndex yr.fromRef with e | f
    · rw [hf] at hok
      cases hok
    · simp only [hf] at hok
      rcases ht : extractIndex yr.toRef with e | t
    
      · rw [ht] at hok
        cases hok
      · simp only [ht] at hok
        by_cases hbf : f < 0 ∨ (n : Int) ≤ f
        · rw [if_pos hbf] at hok
          cases hok
        · rw [if_neg hbf] at hok
          by_cases hbt : t < 0 ∨ (n : Int) ≤ t
          · rw [if_pos hbt] at hok
            cases hok
          · rw [if_neg hbt] at hok
            rcases hrec : convertRels n rest (i + 1) with e | tl
            · rw [hrec] at hok
              cases hok
            · rw [hrec] at hok
              simp only [Except.map] at hok
              cases hok
              rcases k with _ | k
              · simp only [List.get?_cons_zero, Option.some.injEq] at hk
                subst hk
                exact ⟨f, t, hf, ht, by omega, by omega, by omega, by omega, rfl⟩
              · simp only [List.get?_cons_succ] at hk
                obtain ⟨f2, t2, h1, h2, h3, h4, h5, h6, h7⟩ := ih (i + 1) tl hrec k r hk
                exact ⟨f2, t2, h1, h2, h3, h4, h5, h6, by simpa using h7⟩

theorem convertRels_complete (n : Nat) :
    ∀ (rels : List YamlRelationship) (i : Nat),
      (∀ r ∈ rels, ∃ f t, extractIndex r.fromRef = .ok f ∧ extractIndex r.toRef = .ok t ∧
        0 ≤ f ∧ f < (n : Int) ∧ 0 ≤ t ∧ t < (n : Int)) →
      ∃ out, convertRels n rels i = .ok out := by
  intro rels
  induction rels with
  | nil =>
    intro i _
    exact ⟨[], rfl⟩
  | cons yr rest ih =>
    intro i hall
    obtain ⟨f, t, hf, ht, h1, h2, h3, h4⟩ := hall yr (by simp)
    obtain ⟨tl, htl⟩ := ih (i + 1) fun r hr => hall r (by simp [hr])
    refine ⟨⟨f, t, yr.label⟩ :: tl, ?_⟩
    simp only [convertRels, hf, ht]
    rw [if_neg (by omega), if_neg (by omega), htl]
    rfl

theorem convertRels_to_oob (n : Nat) :
    ∀ (rels : List YamlRelationship) (i p : Nat) (r : YamlRelationship),
      rels.get? p = some r →
      (∀ j rj, j < p → rels.get? j = some rj →
        ∃ f t, extractIndex rj.fromRef = .ok f ∧ extractIndex rj.toRef = .ok t ∧
          0 ≤ f ∧ f < (n : Int) ∧ 0 ≤ t ∧ t < (n : Int)) →
      (∃ f, extractIndex r.fromRef = .ok f ∧ 0 ≤ f ∧ f < (n : Int)) →
      extractIndex r.toRef = .ok ((n : Int)) →
      convertRels n rels i = .error (.toOutOfBounds ((n : Int)) (i + p)) := by
  intro rels
  induction rels with
  | nil =>
    intro i p r hp
    simp at hp
  | cons yr rest ih =>
    intro i p r hp hprev hfrom hto
    rcases p with _ | p
    · simp only [List.get?_cons_zero, Option.some.injEq] at hp
      subst hp
      obtain ⟨f, hf, hf1, hf2⟩ := hfrom
      simp only [convertRels, hf, hto]
      rw [if_neg (by omega), if_pos (by omega)]
      simp
    · simp only [List.get?_cons_succ] at hp
      obtain ⟨f0, t0, hf0, ht0, hb1, hb2, hb3, hb4⟩ :=
        hprev 0 yr (by omega) (by simp)
      simp only [convertRels, hf0, ht0]
      rw [if_neg (by omega), if_neg (by omega)]
      have hrec := ih (i + 1) p r hp
        (fun j rj hj hgj => hprev (j + 1) rj (by omega) (by simpa using hgj))
        hfrom hto
      rw [hrec]
      simp only [Except.map]
      have harith : i + 1 + p = i + (p + 1) := by omega
      rw [harith]

/-- C3: over `n` abstractions, edge conversion succeeds exactly when
every edge's endpoints resolve to indices in `[0, n)`; on success the
edges pass through unchanged (so self-referencing and duplicate edges
are accepted); and an edge whose target resolves to `n` (all earlier
edges being valid) fails the stage with an out-of-bounds error naming
that edge's position. -/
theorem analyzeRelationships_bounds (n : Nat) (rels : List YamlRelationship) :
    ((∃ out, convertRels n rels 0 = .ok out) ↔
      (∀ r ∈ rels, ∃ f t, extractIndex r.fromRef = .ok f ∧ extractIndex r.toRef = .ok t ∧
        0 ≤ f ∧ f < (n : Int) ∧ 0 ≤ t ∧ t < (n : Int))) ∧
    (∀ out, convertRels n rels 0 = .ok out →
      ∀ k r, rels.get? k = some r →
        ∃ f t, extractIndex r.fromRef = .ok f ∧ extractIndex r.toRef = .ok t ∧
          out.get? k = some ⟨f, t, r.label⟩) ∧
    (∀ p r, rels.get? p = some r →
      (∀ j rj, j < p → rels.get? j = some rj →
        ∃ f t, extractIndex rj.fromRef = .ok f ∧ extractIndex rj.toRef = .ok t ∧
          0 ≤ f ∧ f < (n : Int) ∧ 0 ≤ t ∧ t < (n : Int)) →
      (∃ f, extractIndex r.fromRef = .ok f ∧ 0 ≤ f ∧ f < (n : Int)) →
      extractIndex r.toRef = .ok ((n : Int)) →
      convertRels n rels 0 = .error (.toOutOfBounds ((n : Int)) p)) := by
  refine ⟨⟨?_, ?_⟩, ?_, ?_⟩
  · rintro ⟨out, hok⟩ r hr
    obtain ⟨k, hk⟩ := List.get?_of_mem hr
    obtain ⟨f, t, h1, h2, h3, h4, h5, h6, -⟩ := convertRels_ok n rels 0 out hok k r hk
    exact ⟨f, t, h1, h2, h3, h4, h5, h6⟩
  · exact convertRels_complete n rels 0
  · intro out hok k r hk
    obtain ⟨f, t, h1, h2, h3, h4, h5, h6, h7⟩ := convertRels_ok n rels 0 out hok k r hk
    exact ⟨f, t, h1, h2, h7⟩
  · intro p r hp hprev hfrom hto
    have := convertRels_to_oob n rels 0 p r hp hprev hfrom hto
    simpa using this

/-- C3, witness: over one abstraction, a duplicated self-edge list
converts unchanged, and an edge whose target resolves to the
abstraction count fails with a position-naming out-of-bounds error. -/
theorem analyzeRelationships_bounds_witness :
    convertRels 1 [⟨.int 0, .int 0, "self"⟩, ⟨.int 0, .int 0, "self"⟩] 0 =
      .ok [⟨0, 0, "self"⟩, ⟨0, 0, "self"⟩] ∧
    (∃ f t, extractIndex (YamlVal.int 0) = .ok f ∧ extractIndex (YamlVal.int 0) = .ok t ∧
      ([⟨0, 0, "self"⟩, ⟨0, 0, "self"⟩] : List Relationship).get? 1 = some ⟨f, t, "self"⟩) ∧
    convertRels 1 [⟨.int 0, .int 1, "bad"⟩] 0 = .error (.toOutOfBounds 1 0) := by
  refine ⟨rfl, ?_, ?_⟩
  · exact (analyzeRelationships_bounds 1
      [⟨.int 0, .int 0, "self"⟩, ⟨.int 0, .int 0, "self"⟩]).2.1
      [⟨0, 0, "self"⟩, ⟨0, 0, "self"⟩] rfl 1 ⟨.int 0, .int 0, "self"⟩ rfl
  · have h := (analyzeRelationships_bounds 1 [⟨.int 0, .int 1, "bad"⟩]).2.2
      0 ⟨.int 0, .int 1, "bad"⟩ rfl
      (fun j rj hj _ => absurd hj (by omega))
      ⟨0, rfl, by omega, by omega⟩ rfl
    simpa using h

/-! ## Claim C7: filename sanitization -/

theorem replacePairs_length_le : ∀ cs : List Char, (replacePairs cs).length ≤ cs.length := by
  intro cs
  induction cs using replacePairs.induct with
  | case1 => simp [replacePairs]
  | case2 c => simp [replacePairs]
  | case3 c1 c2 rest hb ih =>
    simp only [replacePairs, if_pos hb, List.length_cons]
    simpa using Nat.le_trans ih (by omega)
  | case4 c1 c2 rest hb ih =>
    simp only [replacePairs, if_neg hb, List.length_cons]
    simpa using ih

theorem replacePairs_length_lt :
    ∀ cs : List Char, containsSub [ '_', '_' ] cs = true →
      (replacePairs cs).length < cs.length := by
  intro cs
  induction cs using replacePairs.induct with
  | case1 => intro h; simp [containsSub, List.isPrefixOf] at h
  | case2 c => intro h; simp [containsSub, List.isPrefixOf] at h
  | case3 c1 c2 rest hb ih =>
    intro _
    simp only [replacePairs, if_pos hb, List.length_cons]
    have := replacePairs_length_le rest
    omega
  | case4 c1 c2 rest hb ih =>
    intro h
    rw [containsSub] at h
    rcases (Bool.or_eq_true _ _).mp h with h1 | h2
    · exfalso
      simp only [List.isPrefixOf, Bool.and_eq_true, beq_iff_eq] at h1
      exact hb ⟨h1.1.symm, h1.2.1.symm⟩
    · simp only [replacePairs, if_neg hb, List.length_cons]
      exact Nat.succ_lt_succ (ih h2)

theorem collapseRunsSpec_nil : collapseRunsSpec [] = [] := by
  rw [collapseRunsSpec]

theorem collapseRunsSpec_cons (c : Char) (rest : List Char) :
    collapseRunsSpec (c :: rest) =
      if c = '_' then '_' :: collapseRunsSpec (rest.dropWhile (· == '_'))
      else c :: collapseRunsSpec rest := by
  rw [collapseRunsSpec]

theorem replacePairs_cons_of_ne (c : Char) (rest : List Char) (hc : c ≠ '_') :
    replacePairs (c :: rest) = c :: replacePairs rest := by
  rcases rest with _ | ⟨r, rs⟩
  · rfl
  · rw [replacePairs, if_neg (fun hh => hc hh.1)]

theorem rep_spec (n : Nat) : ∀ cs : List Char, cs.length ≤ n →
    collapseRunsSpec (replacePairs cs) = collapseRunsSpec cs ∧
    collapseRunsSpec ((replacePairs cs).dropWhile (· == '_')) =
      collapseRunsSpec (cs.dropWhile (· == '_')) := by
  induction n using Nat.strong_induction_on with
  | _ n ih =>
    intro cs hlen
    rcases cs with _ | ⟨c1, rest1⟩
    · exact ⟨rfl, rfl⟩
    rcases rest1 with _ | ⟨c2, rest⟩
    · exact ⟨rfl, rfl⟩
    simp only [List.length_cons] at hlen
    by_cases hb : c1 = '_' ∧ c2 = '_'
    · obtain ⟨rfl, rfl⟩ := hb
      have hrep : replacePairs ('_' :: '_' :: rest) = '_' :: replacePairs rest := by
        rw [replacePairs, if_pos ⟨rfl, rfl⟩]
      obtain ⟨-, ihd⟩ := ih (n - 1) (by omega) rest (by omega)
      constructor
      · rw [hrep]
        simp [collapseRunsSpec_cons, List.dropWhile_cons, ihd]
      · rw [hrep]
        simp only [List.dropWhile_cons]
        simpa using ihd
    · have hrep : replacePairs (c1 :: c2 :: rest) = c1 :: replacePairs (c2 :: rest) := by
        rw [replacePairs, if_neg hb]
      obtain ⟨ihs, -⟩ := ih (n - 1) (by omega) (c2 :: rest) (by simp; omega)
      by_cases hc1 : c1 = '_'
      · subst hc1
        have hc2 : c2 ≠ '_' := fun hh => hb ⟨rfl, hh⟩
        have hrep2 : replacePairs (c2 :: rest) = c2 :: replacePairs rest :=
          replacePairs_cons_of_ne c2 rest hc2
        have hdw : (replacePairs (c2 :: rest)).dropWhile (· == '_') =
            replacePairs (c2 :: rest) := by
          rw [hrep2, List.dropWhile_cons]
          simp [hc2]
        have hdw2 : (c2 :: rest).dropWhile (· == '_') = c2 :: rest := by
          rw [List.dropWhile_cons]
          simp [hc2]
        constructor
        · rw [hrep, collapseRunsSpec_cons, if_pos rfl]
          conv_rhs => rw [collapseRunsSpec_cons]
          rw [if_pos rfl, hdw, hdw2, ihs]
        · rw [hrep]
          simp only [List.dropWhile_cons]
          simp only [beq_self_eq_true, if_true]
          rw [hdw, if_neg (show ¬ (c2 == '_') = true by simp [hc2]), ihs]
      · have h1 : collapseRunsSpec (replacePairs (c1 :: c2 :: rest)) =
            collapseRunsSpec (c1 :: c2 :: rest) := by
          rw [hrep, collapseRunsSpec_cons, if_neg hc1]
          conv_rhs => rw [collapseRunsSpec_cons]
          rw [if_neg hc1, ihs]
        refine ⟨h1, ?_⟩
        rw [hrep]
        simp only [List.dropWhile_cons]
        have hcb : (c1 == '_') = false := by simp [hc1]
        rw [hcb]
        simp only [Bool.false_eq_true, if_false]
        rw [← hrep, h1]

theorem collapseRunsSpec_eq_self :
    ∀ cs : List Char, containsSub [ '_', '_' ] cs = false → collapseRunsSpec cs = cs := by
  intro cs
  induction cs with
  | nil => intro _; exact collapseRunsSpec_nil
  | cons c rest ih =>
    intro h
    rw [containsSub] at h
    obtain ⟨hpref, hrest⟩ := Bool.or_eq_false_iff.mp h
    by_cases hc : c = '_'
    · subst hc
      rw [collapseRunsSpec_cons, if_pos rfl]
      rcases rest with _ | ⟨r, rs⟩
      · simp [collapseRunsSpec_nil]
      · simp only [List.isPrefixOf, beq_self_eq_true, Bool.true_and] at hpref
        have hr : ('_' == r) = false := by
          rcases hb : ('_' == r) with _ | _
          · rfl
          · exfalso
            simp only [List.isPrefixOf, hb, Bool.true_and] at hpref
            simp at hpref
        have hrne : r ≠ '_' := by
          intro hh
          subst hh
          simp at hr
        rw [List.dropWhile_cons]
        simp only [show (r == '_') = false by simp [hrne], Bool.false_eq_true, if_false]
        rw [ih hrest]
    · rw [collapseRunsSpec_cons, if_neg hc, ih hrest]

theorem collapseLoop_eq_spec :
    ∀ (fuel : Nat) (cs : List Char), cs.length ≤ fuel →
      collapseLoop fuel cs = collapseRunsSpec cs := by
  intro fuel
  induction fuel with
  | zero =>
    intro cs hlen
    have : cs = [] := by
      cases cs
      · rfl
      · simp at hlen
    subst this
    rw [collapseRunsSpec_nil]
    rfl
  | succ fuel ih =>
    intro cs hlen
    rw [collapseLoop]
    by_cases hc : containsSub [ '_', '_' ] cs = true
    · rw [if_pos hc]
      have hlt := replacePairs_length_lt cs hc
      rw [ih (replacePairs cs) (by omega)]
      exact (rep_spec cs.length cs le_rfl).1
    · rw [if_neg hc]
      exact (collapseRunsSpec_eq_self cs (by simpa using hc)).symm

theorem collapseUnderscores_eq_spec (cs : List Char) :
    collapseUnderscores cs = collapseRunsSpec cs :=
  collapseLoop_eq_spec cs.length cs le_rfl

theorem sanitizeFilename_eq_spec (s : String) : sanitizeFilename s = sanitizeSpec s := by
  unfold sanitizeFilename sanitizeSpec
  rw [collapseUnderscores_eq_spec]

theorem writeLoop_paths (writeFails : String → Bool) (outDir : String) :
    ∀ (chapters : List Chapter) (fs : List (String × String)) (written : List String)
      (fs2 : List (String × String)) (paths : List String),
      writeLoop writeFails outDir chapters fs written = (fs2, .ok paths) →
      paths = written.reverse ++ chapters.map
        (fun ch => joinPath outDir
          (pad2 ch.chapterNumber ++ "_" ++ sanitizeFilename ch.title ++ ".md")) := by
  intro chapters
  induction chapters with
  | nil =>
    intro fs written fs2 paths h
    simp only [writeLoop, Prod.mk.injEq, Except.ok.injEq] at h
    simp [h.2.symm]
  | cons ch rest ih =>
    intro fs written fs2 paths h
    simp only [writeLoop] at h
    by_cases hw : writeFails (joinPath outDir (chapterFilename ch)) = true
    · rw [if_pos hw] at h
      simp at h
    · rw [if_neg hw] at h
      have := ih (fs ++ [(joinPath outDir (chapterFilename ch), ch.content)])
        (joinPath outDir (chapterFilename ch) :: written) fs2 paths h
      rw [this]
      simp [chapterFilename]

/-- C7: filename sanitization agrees with the specification's
description (lowercase, map outside `[a-z0-9]` to underscore, collapse
every underscore run, trim edge underscores) on every input; it maps
the two example inputs as the specification states; and every path the
emission step reports on success is the 2-digit chapter number, an
underscore, the sanitized title, and `".md"`, joined to the output
directory. -/
theorem sanitizeFilename_spec (s : String) (writeFails : String → Bool)
    (outDir : String) (chapters : List Chapter) (fs fs2 : List (String × String))
    (paths : List String)
    (hok : writeMarkdownFiles writeFails fs outDir chapters = (fs2, .ok paths)) :
    sanitizeFilename s = sanitizeSpec s ∧
    sanitizeFilename "Node Abstraction!" = "node_abstraction" ∧
    sanitizeFilename "__A--B__" = "a_b" ∧
    paths = chapters.map
      (fun ch => joinPath outDir
        (pad2 ch.chapterNumber ++ "_" ++ sanitizeFilename ch.title ++ ".md")) := by
  refine ⟨sanitizeFilename_eq_spec s, by decide, by decide, ?_⟩
  unfold writeMarkdownFiles at hok
  by_cases hd : outDir = ""
  · rw [if_pos hd] at hok
    simp at hok
  · rw [if_neg hd] at hok
    simpa using writeLoop_paths writeFails outDir chapters fs [] fs2 paths hok

/-- C7, witness: the claim theorem applied to a trivially succeeding
emission, evaluating both sanitization examples. -/
theorem sanitizeFilename_spec_witness :
    sanitizeFilename "Node Abstraction!" = "node_abstraction" ∧
    sanitizeFilename "__A--B__" = "a_b" ∧
    ([] : List String) = ([] : List Chapter).map
      (fun ch => joinPath "out"
        (pad2 ch.chapterNumber ++ "_" ++ sanitizeFilename ch.title ++ ".md")) :=
  ⟨(sanitizeFilename_spec "x" (fun _ => false) "out" [] [] [] [] rfl).2.1,
   (sanitizeFilename_spec "x" (fun _ => false) "out" [] [] [] [] rfl).2.2.1,
   (sanitizeFilename_spec "x" (fun _ => false) "out" [] [] [] [] rfl).2.2.2⟩

/-! ## Claim C9: file-index guards in prompt-context building -/

theorem relFilesCtx_nonneg (files : List FileContent) :
    ∀ indices : List Int, (∀ fi ∈ indices, 0 ≤ fi) →
      relFilesCtx files indices = some (relFilesCtxTotal files indices) := by
  intro indices
  induction indices with
  | nil => intro _; rfl
  | cons fi rest ih =>
    intro hall
    have h0 : 0 ≤ fi := hall fi (by simp)
    simp only [relFilesCtx, relFilesCtxTotal]
    by_cases hlt : fi < (files.length : Int)
    · rw [if_pos hlt]
      have htn : fi.toNat < files.length := by omega
      have hf : files.get? fi.toNat = some (files.get ⟨fi.toNat, htn⟩) :=
        List.get?_eq_get htn
      have hidx : goIndex files fi = some (files.get ⟨fi.toNat, htn⟩) := by
        unfold goIndex
        rw [if_pos ⟨h0, hlt⟩, hf]
      rw [hidx]
      have hidx2 : (if 0 ≤ fi ∧ fi < (files.length : Int) then files.get? fi.toNat else none) =
          some (files.get ⟨fi.toNat, htn⟩) := by
        rw [if_pos ⟨h0, hlt⟩, hf]
      rw [hidx2, ih fun x hx => hall x (by simp [hx])]
      rfl
    · rw [if_neg hlt]
      have hidx2 : (if 0 ≤ fi ∧ fi < (files.length : Int) then files.get? fi.toNat else none) =
          none := by
        rw [if_neg (fun hh => hlt hh.2)]
      rw [hidx2, ih fun x hx => hall x (by simp [hx])]

theorem relFilesCtx_neg (files : List FileContent) :
    ∀ indices : List Int, (∃ fi ∈ indices, fi < 0) →
      relFilesCtx files indices = none := by
  intro indices
  induction indices with
  | nil => rintro ⟨fi, hmem, -⟩; simp at hmem
  | cons fi rest ih =>
    rintro ⟨x, hmem, hneg⟩
    simp only [relFilesCtx]
    rcases List.mem_cons.mp hmem with rfl | hx2
    · rw [if_pos (by omega)]
      have hidx : goIndex files x = none := by
        unfold goIndex
        rw [if_neg (fun hh => by omega)]
      rw [hidx]
    · by_cases hlt : fi < (files.length : Int)
      · rw [if_pos hlt]
        rcases hidx : goIndex files fi with _ | f
        · rfl
        · rw [ih ⟨x, hx2, hneg⟩]
          rfl
      · rw [if_neg hlt]
        exact ih ⟨x, hx2, hneg⟩

theorem wcFileEntries_nonneg (files : List FileContent) :
    ∀ indices : List Int, (∀ fi ∈ indices, 0 ≤ fi) →
      wcFileEntries files indices = some (wcFileEntriesTotal files indices) := by
  intro indices
  induction indices with
  | nil => intro _; rfl
  | cons fi rest ih =>
    intro hall
    have h0 : 0 ≤ fi := hall fi (by simp)
    simp only [wcFileEntries, wcFileEntriesTotal]
    by_cases hge : (files.length : Int) ≤ fi
    · rw [if_pos hge]
      have hidx2 : (if 0 ≤ fi ∧ fi < (files.length : Int) then files.get? fi.toNat else none) =
          none := by
        rw [if_neg (fun hh => by omega)]
      rw [hidx2, ih fun x hx => hall x (by simp [hx])]
    · rw [if_neg hge]
      have hlt : fi < (files.length : Int) := by omega
      have htn : fi.toNat < files.length := by omega
      have hf : files.get? fi.toNat = some (files.get ⟨fi.toNat, htn⟩) :=
        List.get?_eq_get htn
      have hidx : goIndex files fi = some (files.get ⟨fi.toNat, htn⟩) := by
        unfold goIndex
        rw [if_pos ⟨h0, hlt⟩, hf]
      have hidx2 : (if 0 ≤ fi ∧ fi < (files.length : Int) then files.get? fi.toNat else none) =
          some (files.get ⟨fi.toNat, htn⟩) := by
        rw [if_pos ⟨h0, hlt⟩, hf]
      rw [hidx, hidx2, ih fun x hx => hall x (by simp [hx])]
      rfl

theorem wcFileEntries_neg (files : List FileContent) :
    ∀ indices : List Int, (∃ fi ∈ indices, fi < 0) →
      wcFileEntries files indices = none := by
  intro indices
  induction indices with
  | nil => rintro ⟨fi, hmem, -⟩; simp at hmem
  | cons fi rest ih =>
    rintro ⟨x, hmem, hneg⟩
    simp only [wcFileEntries]
    rcases List.mem_cons.mp hmem with rfl | hx2
    · rw [if_neg (by omega)]
      have hidx : goIndex files x = none := by
        unfold goIndex
        rw [if_neg (fun hh => by omega)]
      rw [hidx]
    · by_cases hge : (files.length : Int) ≤ fi
      · rw [if_pos hge]
        exact ih ⟨x, hx2, hneg⟩
      · rw [if_neg hge]
        rcases hidx : goIndex files fi with _ | f
        · rfl
        · rw [ih ⟨x, hx2, hneg⟩]
          rfl

/-- C9: the related-files loops of the Relationship Extractor and the
Chapter Composer guard only the upper bound: when every file index is
non-negative, both loops complete without any out-of-bounds access and
equal the same context built over only the in-bounds indices (so
too-large indices are silently skipped); but a negative file index is
unguarded in both and reaches the corpus-indexing panic (`none`). -/
theorem fileIndex_guard (files : List FileContent) (indices : List Int) :
    ((∀ fi ∈ indices, 0 ≤ fi) →
      relFilesCtx files indices = some (relFilesCtxTotal files indices) ∧
      wcFileEntries files indices = some (wcFileEntriesTotal files indices)) ∧
    ((∃ fi ∈ indices, fi < 0) →
      relFilesCtx files indices = none ∧
      wcFileEntries files indices = none) :=
  ⟨fun h => ⟨relFilesCtx_nonneg files indices h, wcFileEntries_nonneg files indices h⟩,
   fun h => ⟨relFilesCtx_neg files indices h, wcFileEntries_neg files indices h⟩⟩

/-- C9, witness: over a one-file corpus, the index list `[0, 5]` (5 is
out of range) builds a context by skipping index 5, while the list
`[-1]` panics in both loops. -/
theorem fileIndex_guard_witness :
    relFilesCtx [⟨0, "a.go", "x"⟩] [0, 5] =
      some (relFilesCtxTotal [⟨0, "a.go", "x"⟩] [0, 5]) ∧
    wcFileEntries [⟨0, "a.go", "x"⟩] [-1] = none ∧
    relFilesCtx [⟨0, "a.go", "x"⟩] [-1] = none :=
  ⟨((fileIndex_guard [⟨0, "a.go", "x"⟩] [0, 5]).1 (by decide)).1,
   ((fileIndex_guard [⟨0, "a.go", "x"⟩] [-1]).2 ⟨-1, by decide, by decide⟩).2,
   ((fileIndex_guard [⟨0, "a.go", "x"⟩] [-1]).2 ⟨-1, by decide, by decide⟩).1⟩

/-! ## Claim C8: chapter-composition order sensitivity -/

theorem isPrefixOf_refl (s : List Char) : s.isPrefixOf s = true := by
  induction s with
  | nil => rfl
  | cons c rest ih => simp [List.isPrefixOf, ih]

theorem nil_isPrefixOf (l : List Char) : List.isPrefixOf [] l = true := by
  cases l <;> rfl

theorem isPrefixOf_extend {s : List Char} :
    ∀ {x : List Char} (y : List Char), s.isPrefixOf x = true → s.isPrefixOf (x ++ y) = true := by
  induction s with
  | nil => intro x y _; exact nil_isPrefixOf _
  | cons c rest ih =>
    intro x y h
    rcases x with _ | ⟨a, as⟩
    · simp [List.isPrefixOf] at h
    · simp only [List.isPrefixOf, Bool.and_eq_true] at h
      simp only [List.cons_append, List.isPrefixOf, Bool.and_eq_true, List.append_eq]
      exact ⟨h.1, ih y h.2⟩

theorem isPrefixOf_append_self (s t : List Char) : s.isPrefixOf (s ++ t) = true :=
  isPrefixOf_extend t (isPrefixOf_refl s)

theorem containsSub_append_right {sub : List Char} :
    ∀ (x : List Char) {y : List Char},
      containsSub sub y = true → containsSub sub (x ++ y) = true := by
  intro x
  induction x with
  | nil => intro y h; simpa using h
  | cons c rest ih =>
    intro y h
    rw [List.cons_append, containsSub]
    rw [ih h]
    simp

theorem containsSub_append_left {sub : List Char} :
    ∀ {x : List Char} (y : List Char),
      containsSub sub x = true → containsSub sub (x ++ y) = true := by
  intro x
  induction x with
  | nil =>
    intro y h
    simp only [containsSub] at h
    have hsub : sub = [] := by
      rcases sub with _ | ⟨a, as⟩
      · rfl
      · simp [List.isPrefixOf] at h
    subst hsub
    rcases y with _ | ⟨c, rest⟩
    · rfl
    · rw [List.nil_append, containsSub, nil_isPrefixOf]
      simp
  | cons c rest ih =>
    intro y h
    rw [containsSub] at h
    rcases (Bool.or_eq_true _ _).mp h with h1 | h2
    · have h1' := isPrefixOf_extend y h1
      rw [List.cons_append] at h1'
      rw [List.cons_append, containsSub, h1']
      simp
    · rw [List.cons_append, containsSub, ih y h2]
      simp

theorem containsSub_self (s : List Char) : containsSub s s = true := by
  rcases s with _ | ⟨c, rest⟩
  · rfl
  · rw [containsSub, isPrefixOf_refl]
    simp

theorem containsStr_append_right (sub x y : String) :
    containsStr sub y = true → containsStr sub (x ++ y) = true := by
  intro h
  unfold containsStr
  rw [String.data_append]
  exact containsSub_append_right x.data h

theorem containsStr_append_left (sub x y : String) :
    containsStr sub x = true → containsStr sub (x ++ y) = true := by
  intro h
  unfold containsStr
  rw [String.data_append]
  exact containsSub_append_left y.data h

theorem containsStr_self (s : String) : containsStr s s = true :=
  containsSub_self s.data

theorem prevLines_contains :
    ∀ (prev : List ChapterSummary) (cs : ChapterSummary), cs ∈ prev →
      containsStr cs.name (prevLines prev) = true ∧
      containsStr cs.summary (prevLines prev) = true := by
  intro prev
  induction prev with
  | nil => intro cs h; simp at h
  | cons p rest ih =>
    intro cs h
    rcases List.mem_cons.mp h with rfl | h2
    · constructor
      · apply containsStr_append_left
        unfold prevLine
        apply containsStr_append_left
        apply containsStr_append_left
        apply containsStr_append_left
        exact containsStr_append_right _ _ _ (containsStr_self cs.name)
      · apply containsStr_append_left
        unfold prevLine
        apply containsStr_append_left
        exact containsStr_append_right _ _ _ (containsStr_self cs.summary)
    · obtain ⟨hn, hs⟩ := ih cs h2
      exact ⟨containsStr_append_right _ _ _ hn, containsStr_append_right _ _ _ hs⟩

/-- C8: chapter composition is order-sensitive through its prior-summary
input — with a non-empty previous-chapter list the constructed prompt
contains every prior chapter's name and summary, and with an empty list
the prompt equals one built with no previously-covered-chapters
component at all (a definition that never reads the list), so it
references no other chapter. -/
theorem chapterPrompt_order_sensitivity (inp : WriteChapterInput) (prompt : String)
    (hp : buildChapterPrompt inp = some prompt) :
    (∀ cs ∈ inp.previousChapters,
        containsStr cs.name prompt = true ∧ containsStr cs.summary prompt = true) ∧
    (inp.previousChapters = [] →
      buildChapterPrompt inp = buildChapterPromptNoPrev inp) := by
  constructor
  · intro cs hcs
    unfold buildChapterPrompt at hp
    rcases hfc : wcFileContext inp.files inp.abstraction.fileIndices with _ | fc
    · rw [hfc] at hp
      cases hp
    · rw [hfc] at hp
      simp only [Option.map] at hp
      cases hp
      have hne : inp.previousChapters.isEmpty = false := by
        rcases hl : inp.previousChapters with _ | ⟨a, b⟩
        · rw [hl] at hcs
          simp at hcs
        · rfl
      have hctx : prevContext inp.previousChapters =
          "\n\nPREVIOUSLY COVERED CONCEPTS (for reference, don't repeat):\n" ++
            prevLines inp.previousChapters := by
        unfold prevContext
        rw [hne]
        simp
      obtain ⟨hn, hs⟩ := prevLines_contains inp.previousChapters cs hcs
      constructor
      · apply containsStr_append_left
        apply containsStr_append_left
        apply containsStr_append_left
        apply containsStr_append_right
        rw [hctx]
        exact containsStr_append_right _ _ _ hn
      · apply containsStr_append_left
        apply containsStr_append_left
        apply containsStr_append_left
        apply containsStr_append_right
        rw [hctx]
        exact containsStr_append_right _ _ _ hs
  · intro hempty
    unfold buildChapterPrompt buildChapterPromptNoPrev
    rw [hempty]
    rfl

/-- C8, witness: with one prior chapter `("Ch1", "S1")` the built
prompt contains both strings; with no prior chapters the prompt equals
the no-previous-chapters build. -/
theorem chapterPrompt_order_sensitivity_witness :
    containsStr "Ch1"
      (wcT1 ++ "P" ++ wcT2 ++ "A" ++ wcT3 ++ "D" ++ wcT4 ++
        ("Related code files:\n\n" ++ "") ++ wcT5 ++
        prevContext [⟨"Ch1", "S1"⟩] ++ wcT6 ++ "A" ++ wcT7) = true ∧
    containsStr "S1"
      (wcT1 ++ "P" ++ wcT2 ++ "A" ++ wcT3 ++ "D" ++ wcT4 ++
        ("Related code files:\n\n" ++ "") ++ wcT5 ++
        prevContext [⟨"Ch1", "S1"⟩] ++ wcT6 ++ "A" ++ wcT7) = true ∧
    buildChapterPrompt ⟨⟨0, "A", "D", []⟩, [], [], "P", 1⟩ =
      buildChapterPromptNoPrev ⟨⟨0, "A", "D", []⟩, [], [], "P", 1⟩ :=
  ⟨((chapterPrompt_order_sensitivity ⟨⟨0, "A", "D", []⟩, [], [⟨"Ch1", "S1"⟩], "P", 1⟩
      (wcT1 ++ "P" ++ wcT2 ++ "A" ++ wcT3 ++ "D" ++ wcT4 ++
        ("Related code files:\n\n" ++ "") ++ wcT5 ++
        prevContext [⟨"Ch1", "S1"⟩] ++ wcT6 ++ "A" ++ wcT7) rfl).1
      ⟨"Ch1", "S1"⟩ (by simp)).1,
   ((chapterPrompt_order_sensitivity ⟨⟨0, "A", "D", []⟩, [], [⟨"Ch1", "S1"⟩], "P", 1⟩
      (wcT1 ++ "P" ++ wcT2 ++ "A" ++ wcT3 ++ "D" ++ wcT4 ++
        ("Related code files:\n\n" ++ "") ++ wcT5 ++
        prevContext [⟨"Ch1", "S1"⟩] ++ wcT6 ++ "A" ++ wcT7) rfl).1
      ⟨"Ch1", "S1"⟩ (by simp)).2,
   (chapterPrompt_order_sensitivity ⟨⟨0, "A", "D", []⟩, [], [], "P", 1⟩
      (wcT1 ++ "P" ++ wcT2 ++ "A" ++ wcT3 ++ "D" ++ wcT4 ++
        ("Related code files:\n\n" ++ "") ++ wcT5 ++
        prevContext [] ++ wcT6 ++ "A" ++ wcT7) rfl).2 rfl⟩

/-! ## Claim C6: fenced-block candidate selection -/

theorem ticks_eq : ticks = btChar :: btChar :: btChar :: [] := rfl

theorem tickYaml_eq :
    tickYaml = btChar :: btChar :: btChar :: 'y' :: 'a' :: 'm' :: 'l' :: [] := rfl

theorem containsSub_at (c0 : Char) (tl : List Char) :
    ∀ (A Y : List Char), containsSub (c0 :: tl) (A ++ ((c0 :: tl) ++ Y)) = true := by
  intro A Y
  apply containsSub_append_right A
  have hpre := isPrefixOf_append_self (c0 :: tl) Y
  rw [List.cons_append] at hpre
  rw [List.cons_append, containsSub, hpre]
  simp

theorem afterFirst_clean (c0 : Char) (tl : List Char) :
    ∀ (A Y : List Char), (∀ x ∈ A, x ≠ c0) →
      afterFirst (c0 :: tl) (A ++ ((c0 :: tl) ++ Y)) = some Y := by
  intro A
  induction A with
  | nil =>
    intro Y _
    rw [List.nil_append, List.cons_append, afterFirst]
    have hpre := isPrefixOf_append_self (c0 :: tl) Y
    rw [List.cons_append] at hpre
    rw [hpre]
    simp only [if_true]
    congr 1
    have : (c0 :: tl).length = tl.length + 1 := by simp
    rw [← List.cons_append, List.drop_left]
  | cons a A' ih =>
    intro Y h
    rw [List.cons_append, afterFirst]
    have hne : ((c0 :: tl).isPrefixOf (a :: (A' ++ ((c0 :: tl) ++ Y)))) = false := by
      simp only [List.isPrefixOf, Bool.and_eq_false_iff]
      left
      simp only [beq_eq_false_iff_ne, ne_eq]
      exact fun he => h a (by simp) he.symm
    rw [hne]
    simp only [Bool.false_eq_true, if_false]
    exact ih Y fun x hx => h x (by simp [hx])

theorem beforeFirst_self_append (c0 : Char) (tl Y : List Char) :
    beforeFirst (c0 :: tl) ((c0 :: tl) ++ Y) = [] := by
  rw [List.cons_append, beforeFirst]
  have hpre := isPrefixOf_append_self (c0 :: tl) Y
  rw [List.cons_append] at hpre
  rw [hpre]
  simp

theorem beforeFirst_clean_id (c0 : Char) (tl : List Char) (A : List Char)
    (h : ∀ x ∈ A, x ≠ c0) : beforeFirst (c0 :: tl) A = A := by
  have hh := @beforeFirst_cons_head c0 tl A [] h
  rw [List.append_nil] at hh
  rw [hh]
  simp [beforeFirst]

theorem isPrefixOf_of_append {s t : List Char} :
    ∀ {X : List Char}, (s ++ t).isPrefixOf X = true → s.isPrefixOf X = true := by
  induction s with
  | nil => intro X _; exact nil_isPrefixOf X
  | cons c s' ih =>
    intro X h
    rcases X with _ | ⟨x, xs⟩
    · simp [List.isPrefixOf] at h
    · simp only [List.cons_append, List.isPrefixOf, Bool.and_eq_true] at h
      simp only [List.isPrefixOf, Bool.and_eq_true]
      exact ⟨h.1, ih h.2⟩

theorem containsSub_mono {s t : List Char} :
    ∀ {cs : List Char}, containsSub (s ++ t) cs = true → containsSub s cs = true := by
  intro cs
  induction cs with
  | nil =>
    intro h
    simp only [containsSub] at h ⊢
    exact isPrefixOf_of_append h
  | cons c rest ih =>
    intro h
    rw [containsSub] at h
    rw [containsSub]
    rcases (Bool.or_eq_true _ _).mp h with h1 | h2
    · rw [isPrefixOf_of_append h1]
      simp
    · rw [ih h2]
      simp

theorem beforeFirst_ticks_inner (c : List Char) (hch : c.head? ≠ some btChar) :
    beforeFirst ticks (beforeFirst tickYaml (ticks ++ c)) = [] := by
  have hgen : ∀ tl' : List Char, List.isPrefixOf (btChar :: tl') c = false := by
    intro tl'
    rcases c with _ | ⟨ch, cw⟩
    · rfl
    · simp only [List.isPrefixOf, Bool.and_eq_false_iff]
      left
      simp only [beq_eq_false_iff_ne, ne_eq]
      intro he
      exact hch (by rw [List.head?_cons, ← he])
  rw [tickYaml_eq, ticks_eq]
  simp only [List.cons_append, List.nil_append]
  by_cases hy : List.isPrefixOf
      (btChar :: btChar :: btChar :: 'y' :: 'a' :: 'm' :: 'l' :: [])
      (btChar :: btChar :: btChar :: c) = true
  · rw [beforeFirst, if_pos hy]
    rfl
  · have h2 : List.isPrefixOf
        (btChar :: btChar :: btChar :: 'y' :: 'a' :: 'm' :: 'l' :: [])
        (btChar :: btChar :: c) = false := by
      simp only [List.isPrefixOf, beq_self_eq_true, Bool.true_and]
      exact hgen _
    have h1 : List.isPrefixOf
        (btChar :: btChar :: btChar :: 'y' :: 'a' :: 'm' :: 'l' :: [])
        (btChar :: c) = false := by
      simp only [List.isPrefixOf, beq_self_eq_true, Bool.true_and]
      exact hgen _
    have hinner : beforeFirst
        (btChar :: btChar :: btChar :: 'y' :: 'a' :: 'm' :: 'l' :: [])
        (btChar :: btChar :: btChar :: c) =
        btChar :: btChar :: btChar :: beforeFirst
          (btChar :: btChar :: btChar :: 'y' :: 'a' :: 'm' :: 'l' :: []) c := by
      rw [beforeFirst, if_neg hy, beforeFirst, if_neg (by simp [h2]),
        beforeFirst, if_neg (by simp [h1])]
    rw [hinner, beforeFirst, if_pos (by simp [List.isPrefixOf])]

theorem extractBlock_tagged (a b c : List Char)
    (ha : ∀ x ∈ a, x ≠ btChar) (hb : ∀ x ∈ b, x ≠ btChar)
    (hch : c.head? ≠ some btChar) :
    extractBlock (a ++ (tickYaml ++ (b ++ (ticks ++ c)))) = b := by
  have hcont : containsSub tickYaml (a ++ (tickYaml ++ (b ++ (ticks ++ c)))) = true := by
    rw [tickYaml_eq]
    exact containsSub_at _ _ a _
  unfold extractBlock
  rw [if_pos hcont]
  have haf : afterFirst tickYaml (a ++ (tickYaml ++ (b ++ (ticks ++ c)))) =
      some (b ++ (ticks ++ c)) := by
    rw [tickYaml_eq]
    exact afterFirst_clean btChar _ a _ ha
  simp only [haf]
  have h3 : beforeFirst tickYaml (b ++ (ticks ++ c)) =
      b ++ beforeFirst tickYaml (ticks ++ c) := by
    rw [tickYaml_eq]
    exact beforeFirst_cons_head b _ hb
  rw [h3]
  have h4 : beforeFirst ticks (b ++ beforeFirst tickYaml (ticks ++ c)) =
      b ++ beforeFirst ticks (beforeFirst tickYaml (ticks ++ c)) := by
    rw [ticks_eq]
    exact beforeFirst_cons_head b _ hb
  rw [h4, beforeFirst_ticks_inner c hch, List.append_nil]

theorem extractBlock_untagged (a b c : List Char)
    (hnoy : containsSub tickYaml (a ++ (ticks ++ (b ++ (ticks ++ c)))) = false)
    (ha : ∀ x ∈ a, x ≠ btChar) (hb : ∀ x ∈ b, x ≠ btChar) :
    extractBlock (a ++ (ticks ++ (b ++ (ticks ++ c)))) = b := by
  unfold extractBlock
  rw [if_neg (by simp [hnoy])]
  have hcont : containsSub ticks (a ++ (ticks ++ (b ++ (ticks ++ c)))) = true := by
    rw [ticks_eq]
    exact containsSub_at _ _ a _
  rw [if_pos hcont]
  have haf : afterFirst ticks (a ++ (ticks ++ (b ++ (ticks ++ c)))) =
      some (b ++ (ticks ++ c)) := by
    rw [ticks_eq]
    exact afterFirst_clean btChar _ a _ ha
  simp only [haf]
  have h3 : beforeFirst ticks (b ++ (ticks ++ c)) =
      b ++ beforeFirst ticks (ticks ++ c) := by
    rw [ticks_eq]
    exact beforeFirst_cons_head b _ hb
  have h4 : beforeFirst ticks (ticks ++ c) = [] := by
    rw [ticks_eq]
    exact beforeFirst_self_append _ _ _
  rw [h3, h4, List.append_nil]

theorem extractBlock_nofence (resp : List Char) (h : containsSub ticks resp = false) :
    extractBlock resp = resp := by
  have hy : containsSub tickYaml resp = false := by
    rcases hb : containsSub tickYaml resp with _ | _
    · rfl
    · exfalso
      have hty : tickYaml = ticks ++ ('y' :: 'a' :: 'm' :: 'l' :: []) := rfl
      have hc : containsSub ticks resp = true := containsSub_mono (hty ▸ hb)
      rw [h] at hc
      cases hc
  unfold extractBlock
  rw [if_neg (by simp [hy]), if_neg (by simp [h])]

/-- C6, counterexample: for the response
`"```json X``` ```\nbar\n```"` — no yaml tag, first fenced block tagged
`json`, second block untagged with content `"\nbar\n"` — the extractor
parses `"json X"`, the first block's content including its language
tag, not the first untagged block's content as the claim states. -/
theorem extractBlock_claim_counterexample :
    extractBlock (("```json X``` ```\nbar\n```").data) = ("json X").data ∧
    ("json X").data ≠ ("\nbar\n").data := by
  constructor
  · rfl
  · decide

/-- C6 (amended): candidate selection of the structured-response
extractor — if the text contains a ```yaml fence, the text between the
first ```yaml and the next plain fence is parsed; otherwise, if the
text contains any fence, the text between the first and second fence
delimiters is parsed, including any language tag on the first fence
(not the first untagged block); otherwise the whole text is parsed.
Stated over backtick-free prose and block content. -/
theorem extractBlock_candidate_selection (a b c resp : List Char)
    (ha : ∀ x ∈ a, x ≠ btChar) (hb : ∀ x ∈ b, x ≠ btChar) :
    (c.head? ≠ some btChar →
      extractBlock (a ++ (tickYaml ++ (b ++ (ticks ++ c)))) = b) ∧
    (containsSub tickYaml (a ++ (ticks ++ (b ++ (ticks ++ c)))) = false →
      extractBlock (a ++ (ticks ++ (b ++ (ticks ++ c)))) = b) ∧
    (containsSub ticks resp = false → extractBlock resp = resp) :=
  ⟨fun hch => extractBlock_tagged a b c ha hb hch,
   fun hnoy => extractBlock_untagged a b c hnoy ha hb,
   fun h => extractBlock_nofence resp h⟩

/-- C6, witness: a yaml-tagged response yields the tagged block's
content, and a fence-free response is parsed whole. -/
theorem extractBlock_candidate_selection_witness :
    extractBlock (("Sure:\n").data ++
      (tickYaml ++ (("\n- 1\n").data ++ (ticks ++ ("\ndone").data)))) = ("\n- 1\n").data ∧
    extractBlock (("summary: x").data) = ("summary: x").data :=
  ⟨(extractBlock_candidate_selection ("Sure:\n").data ("\n- 1\n").data
      ("\ndone").data (("summary: x").data) (by decide) (by decide)).1 (by decide),
   (extractBlock_candidate_selection ("Sure:\n").data ("\n- 1\n").data
      ("\ndone").data (("summary: x").data) (by decide) (by decide)).2.2 (by decide)⟩

/-! ## Claim C5: failure aborts the run; written-file state -/

theorem writeLoop_fs_prefix (wf : String → Bool) (outDir : String) :
    ∀ (chapters : List Chapter) (fs : List (String × String)) (written : List String),
      ∃ k, k ≤ chapters.length ∧
        (writeLoop wf outDir chapters fs written).1 =
          fs ++ (chapters.take k).map
            (fun ch => (joinPath outDir (chapterFilename ch), ch.content)) := by
  intro chapters
  induction chapters with
  | nil =>
    intro fs written
    exact ⟨0, by omega, by simp [writeLoop]⟩
  | cons ch rest ih =>
    intro fs written
    simp only [writeLoop]
    by_cases hw : wf (joinPath outDir (chapterFilename ch)) = true
    · rw [if_pos hw]
      exact ⟨0, by omega, by simp⟩
    · rw [if_neg hw]
      obtain ⟨k, hk, heq⟩ := ih (fs ++ [(joinPath outDir (chapterFilename ch), ch.content)])
        (joinPath outDir (chapterFilename ch) :: written)
      refine ⟨k + 1, by simp; omega, ?_⟩
      rw [heq]
      simp [List.take_succ_cons]

theorem writeMarkdownFiles_fs_prefix (wf : String → Bool) (outDir : String)
    (fs : List (String × String)) (chapters : List Chapter) :
    ∃ k, k ≤ chapters.length ∧
      (writeMarkdownFiles wf fs outDir chapters).1 =
        fs ++ (chapters.take k).map
          (fun ch => (joinPath outDir (chapterFilename ch), ch.content)) := by
  unfold writeMarkdownFiles
  by_cases hd : outDir = ""
  · rw [if_pos hd]
    exact ⟨0, by omega, by simp⟩
  · rw [if_neg hd]
    exact writeLoop_fs_prefix wf outDir chapters fs []

theorem runWorkflow_readErr (oc : StageOutcomes) (outDir : String)
    (fs : List (String × String)) (e : String) (h : oc.readRes = .error e) :
    runWorkflow oc outDir fs = (fs, .error ("failed to read files: " ++ e)) := by
  simp only [runWorkflow, h]

theorem runWorkflow_emptyFiles (oc : StageOutcomes) (outDir : String)
    (fs : List (String × String)) (files : List FileContent)
    (h : oc.readRes = .ok files) (he : files.isEmpty = true) :
    runWorkflow oc outDir fs = (fs, .error "no files found in repository") := by
  simp only [runWorkflow, h]
  rw [if_pos he]

theorem runWorkflow_absErr (oc : StageOutcomes) (outDir : String)
    (fs : List (String × String)) (files : List FileContent) (e : String)
    (h : oc.readRes = .ok files) (he : files.isEmpty = false)
    (ha : oc.absRes = .error e) :
    runWorkflow oc outDir fs = (fs, .error ("failed to analyze abstractions: " ++ e)) := by
  simp only [runWorkflow, h]
  rw [if_neg (by simp [he])]
  simp only [ha]

theorem runWorkflow_emptyAbs (oc : StageOutcomes) (outDir : String)
    (fs : List (String × String)) (files : List FileContent) (abss : List Abstraction)
    (h : oc.readRes = .ok files) (he : files.isEmpty = false)
    (ha : oc.absRes = .ok abss) (hae : abss.isEmpty = true) :
    runWorkflow oc outDir fs = (fs, .error "no abstractions identified") := by
  simp only [runWorkflow, h]
  rw [if_neg (by simp [he])]
  simp only [ha]
  rw [if_pos hae]

theorem runWorkflow_relErr (oc : StageOutcomes) (outDir : String)
    (fs : List (String × String)) (files : List FileContent) (abss : List Abstraction)
    (e : String) (h : oc.readRes = .ok files) (he : files.isEmpty = false)
    (ha : oc.absRes = .ok abss) (hae : abss.isEmpty = false)
    (hrel : oc.relRes = .error e) :
    runWorkflow oc outDir fs = (fs, .error ("failed to analyze relationships: " ++ e)) := by
  simp only [runWorkflow, h]
  rw [if_neg (by simp [he])]
  simp only [ha]
  rw [if_neg (by simp [hae])]
  simp only [hrel]

theorem runWorkflow_ordErr (oc : StageOutcomes) (outDir : String)
    (fs : List (String × String)) (files : List FileContent) (abss : List Abstraction)
    (rel : RelationshipData) (e : String)
    (h : oc.readRes = .ok files) (he : files.isEmpty = false)
    (ha : oc.absRes = .ok abss) (hae : abss.isEmpty = false)
    (hrel : oc.relRes = .ok rel) (hord : oc.orderRes = .error e) :
    runWorkflow oc outDir fs = (fs, .error ("failed to order chapters: " ++ e)) := by
  simp only [runWorkflow, h]
  rw [if_neg (by simp [he])]
  simp only [ha]
  rw [if_neg (by simp [hae])]
  simp only [hrel, hord]

theorem runWorkflow_chapErr (oc : StageOutcomes) (outDir : String)
    (fs : List (String × String)) (files : List FileContent) (abss : List Abstraction)
    (rel : RelationshipData) (order : List Int) (e : String)
    (h : oc.readRes = .ok files) (he : files.isEmpty = false)
    (ha : oc.absRes = .ok abss) (hae : abss.isEmpty = false)
    (hrel : oc.relRes = .ok rel) (hord : oc.orderRes = .ok order)
    (hcl : chapterLoop oc abss order 0 [] [] = .error e) :
    runWorkflow oc outDir fs = (fs, .error e) := by
  simp only [runWorkflow, h]
  rw [if_neg (by simp [he])]
  simp only [ha]
  rw [if_neg (by simp [hae])]
  simp only [hrel, hord, hcl]

theorem runWorkflow_emission (oc : StageOutcomes) (outDir : String)
    (fs : List (String × String)) (files : List FileContent) (abss : List Abstraction)
    (rel : RelationshipData) (order : List Int) (chapters : List Chapter)
    (h : oc.readRes = .ok files) (he : files.isEmpty = false)
    (ha : oc.absRes = .ok abss) (hae : abss.isEmpty = false)
    (hrel : oc.relRes = .ok rel) (hord : oc.orderRes = .ok order)
    (hcl : chapterLoop oc abss order 0 [] [] = .ok chapters) :
    runWorkflow oc outDir fs = writeMarkdownFiles oc.writeFails fs outDir chapters := by
  simp only [runWorkflow, h]
  rw [if_neg (by simp [he])]
  simp only [ha]
  rw [if_neg (by simp [hae])]
  simp only [hrel, hord, hcl]

/-- C5 (amended): a failure in any stage before emission leaves the
written-file state unchanged (no chapter files are emitted for such a
run); in general the state after a run is the prior state plus the
files of a prefix of that run's chapter list, so when the emission step
itself fails partway through the chapter list, the files already
written in that run remain on disk rather than the state reverting. -/
theorem runWorkflow_abort (oc : StageOutcomes) (outDir : String)
    (fs : List (String × String)) :
    (∀ e, oc.readRes = .error e → (runWorkflow oc outDir fs).1 = fs) ∧
    (∀ files, oc.readRes = .ok files → files.isEmpty = true →
      (runWorkflow oc outDir fs).1 = fs) ∧
    (∀ files e, oc.readRes = .ok files → files.isEmpty = false →
      oc.absRes = .error e → (runWorkflow oc outDir fs).1 = fs) ∧
    (∀ files abss, oc.readRes = .ok files → files.isEmpty = false →
      oc.absRes = .ok abss → abss.isEmpty = true → (runWorkflow oc outDir fs).1 = fs) ∧
    (∀ files abss e, oc.readRes = .ok files → files.isEmpty = false →
      oc.absRes = .ok abss → abss.isEmpty = false →
      oc.relRes = .error e → (runWorkflow oc outDir fs).1 = fs) ∧
    (∀ files abss rel e, oc.readRes = .ok files → files.isEmpty = false →
      oc.absRes = .ok abss → abss.isEmpty = false → oc.relRes = .ok rel →
      oc.orderRes = .error e → (runWorkflow oc outDir fs).1 = fs) ∧
    (∀ files abss rel order e, oc.readRes = .ok files → files.isEmpty = false →
      oc.absRes = .ok abss → abss.isEmpty = false → oc.relRes = .ok rel →
      oc.orderRes = .ok order → chapterLoop oc abss order 0 [] [] = .error e →
      (runWorkflow oc outDir fs).1 = fs) ∧
    (∃ k chapters, k ≤ (chapters : List Chapter).length ∧
      (runWorkflow oc outDir fs).1 = fs ++ (chapters.take k).map
        (fun ch => (joinPath outDir (chapterFilename ch), ch.content))) := by
  refine ⟨?_, ?_, ?_, ?_, ?_, ?_, ?_, ?_⟩
  · intro e h
    rw [runWorkflow_readErr oc outDir fs e h]
  · intro files h he
    rw [runWorkflow_emptyFiles oc outDir fs files h he]
  · intro files e h he ha
    rw [runWorkflow_absErr oc outDir fs files e h he ha]
  · intro files abss h he ha hae
    rw [runWorkflow_emptyAbs oc outDir fs files abss h he ha hae]
  · intro files abss e h he ha hae hrel
    rw [runWorkflow_relErr oc outDir fs files abss e h he ha hae hrel]
  · intro files abss rel e h he ha hae hrel hord
    rw [runWorkflow_ordErr oc outDir fs files abss rel e h he ha hae hrel hord]
  · intro files abss rel order e h he ha hae hrel hord hcl
    rw [runWorkflow_chapErr oc outDir fs files abss rel order e h he ha hae hrel hord hcl]
  · rcases hr : oc.readRes with e | files
    · exact ⟨0, [], by omega, by rw [runWorkflow_readErr oc outDir fs e hr]; simp⟩
    · rcases hemp : files.isEmpty with _ | _
      · rcases ha : oc.absRes with e | abss
        · exact ⟨0, [], by omega, by rw [runWorkflow_absErr oc outDir fs files e hr hemp ha]; simp⟩
        · rcases hemp2 : abss.isEmpty with _ | _
          · rcases hrel : oc.relRes with e | rel
            · exact ⟨0, [], by omega,
                by rw [runWorkflow_relErr oc outDir fs files abss e hr hemp ha hemp2 hrel]; simp⟩
            · rcases hord : oc.orderRes with e | order
              · exact ⟨0, [], by omega,
                  by rw [runWorkflow_ordErr oc outDir fs files abss rel e hr hemp ha hemp2 hrel hord]; simp⟩
              · rcases hcl : chapterLoop oc abss order 0 [] [] with e | chapters
                · exact ⟨0, [], by omega,
                    by rw [runWorkflow_chapErr oc outDir fs files abss rel order e hr hemp ha hemp2 hrel hord hcl]; simp⟩
                · obtain ⟨k, hk, heq⟩ :=
                    writeMarkdownFiles_fs_prefix oc.writeFails outDir fs chapters
                  exact ⟨k, chapters, hk,
                    by rw [runWorkflow_emission oc outDir fs files abss rel order chapters hr hemp ha hemp2 hrel hord hcl]; exact heq⟩
          · exact ⟨0, [], by omega,
              by rw [runWorkflow_emptyAbs oc outDir fs files abss hr hemp ha hemp2]; simp⟩
      · exact ⟨0, [], by omega, by rw [runWorkflow_emptyFiles oc outDir fs files hr hemp]; simp⟩

/-- C5, witness: a run whose file-reading stage fails leaves the
written-file state untouched. -/
theorem runWorkflow_abort_witness :
    (runWorkflow ⟨.error "boom", .ok [], .ok ⟨"", []⟩, .ok [],
        fun _ => .error "x", fun _ => false⟩ "out" [("p", "c")]).1 = [("p", "c")] :=
  (runWorkflow_abort ⟨.error "boom", .ok [], .ok ⟨"", []⟩, .ok [],
      fun _ => .error "x", fun _ => false⟩ "out" [("p", "c")]).1 "boom" rfl

theorem natChars_one : natChars 1 = [ '1' ] := by
  rw [natChars]
  rfl

theorem natChars_two : natChars 2 = [ '2' ] := by
  rw [natChars]
  rfl

theorem pad2_one : pad2 1 = "01" := by
  unfold pad2
  rw [if_pos (by constructor <;> omega)]
  show String.mk ('0' :: natChars (Int.toNat 1)) = "01"
  rw [show Int.toNat 1 = 1 from rfl, natChars_one]

theorem pad2_two : pad2 2 = "02" := by
  unfold pad2
  rw [if_pos (by constructor <;> omega)]
  show String.mk ('0' :: natChars (Int.toNat 2)) = "02"
  rw [show Int.toNat 2 = 2 from rfl, natChars_two]

theorem chapterFilename_one : chapterFilename ⟨1, "a", "x"⟩ = "01_a.md" := by
  unfold chapterFilename
  rw [pad2_one]
  decide

theorem chapterFilename_two : chapterFilename ⟨2, "a", "x"⟩ = "02_a.md" := by
  unfold chapterFilename
  rw [pad2_two]
  decide

/-- C5, counterexample: a run whose emission step fails on the second
of two chapter files terminates with an error, yet the written-file
state now contains the first chapter's file — the state is not
unchanged by this failed run, contradicting the claim. -/
theorem runWorkflow_claim_counterexample :
    (runWorkflow ocEx "out" []).1 = [("out/01_a.md", "x")] ∧
    (runWorkflow ocEx "out" []).2 = .error ("failed to write file " ++ "02_a.md") ∧
    [("out/01_a.md", "x")] ≠ ([] : List (String × String)) := by
  have hw1 : wfEx (joinPath "out" (chapterFilename ⟨1, "a", "x"⟩)) = false := by
    rw [chapterFilename_one]
    decide
  have hw2 : wfEx (joinPath "out" (chapterFilename ⟨2, "a", "x"⟩)) = true := by
    rw [chapterFilename_two]
    decide
  have hcl : chapterLoop ocEx [⟨0, "A", "D", []⟩] [0, 0] 0 [] [] =
      .ok [⟨1, "a", "x"⟩, ⟨2, "a", "x"⟩] := rfl
  have hrun : runWorkflow ocEx "out" [] =
      writeMarkdownFiles ocEx.writeFails [] "out" [⟨1, "a", "x"⟩, ⟨2, "a", "x"⟩] :=
    runWorkflow_emission ocEx "out" [] [⟨0, "f.go", "src"⟩] [⟨0, "A", "D", []⟩]
      ⟨"s", []⟩ [0, 0] [⟨1, "a", "x"⟩, ⟨2, "a", "x"⟩] rfl rfl rfl rfl rfl rfl hcl
  have hwf : ocEx.writeFails = wfEx := rfl
  have hwrite : writeMarkdownFiles wfEx [] "out" [⟨1, "a", "x"⟩, ⟨2, "a", "x"⟩] =
      ([(joinPath "out" (chapterFilename ⟨1, "a", "x"⟩), "x")],
        .error ("failed to write file " ++ chapterFilename ⟨2, "a", "x"⟩)) := by
    unfold writeMarkdownFiles
    rw [if_neg (by decide)]
    simp only [writeLoop]
    rw [hw1]
    simp only [Bool.false_eq_true, if_false]
    rw [hw2]
    simp only [if_true]
    simp
  rw [hrun, hwf, hwrite]
  refine ⟨?_, ?_, by decide⟩
  · rw [chapterFilename_one]
    rfl
  · rw [chapterFilename_two]
